import Mathlib

/-!
Verification of the DECHO speech-to-subtitle pipeline.

This file contains a shallow embedding, in Lean 4, of the core algorithms of the
repository (backend/subtitle.py, backend/nlp.py, backend/llm.py, backend/asr.py,
server/routers/audio.py), and theorems about the embedded definitions.

Modelling conventions:
* Python floats are modelled as exact rationals (`ℚ`).
* Python strings are Lean `String`s; `len(s)` is `String.length` (both count
  code points).  Python's `str.strip()` and `str.lower()` are re-implemented at
  the character-list level (`pyStrip`, `strLower`) so that they compute by
  kernel reduction; they agree character-wise with the Python originals on the
  inputs that occur here.
* External collaborators (the spaCy annotator, the chat LLM, the sherpa-onnx
  recognizer) are parameters of the embedded functions: a spaCy pipeline is a
  function `String → Doc`, the recognizer a function `List ℚ → ChunkResult`,
  and the outcome of the chat-completion call plus the JSON decode of its
  content is an explicit `LLMOutcome` value.
* Python `while` loops that are not structurally recursive are written with an
  explicit fuel argument; the fuel chosen provably exceeds the number of
  iterations the loop can make, so the embedded function agrees with the loop.
-/

/-- Python `str.lower()`, character by character. -/
def strLower (s : String) : String := String.mk (s.toList.map Char.toLower)

/-- Python `str.strip()`: drop leading and trailing whitespace. -/
def pyStrip (s : String) : String :=
  String.mk (((s.toList.dropWhile Char.isWhitespace).reverse.dropWhile
      Char.isWhitespace).reverse)

/-- Python `int(q)` on a float: truncation toward zero. -/
def pyInt (q : ℚ) : ℤ := if q < 0 then ⌈q⌉ else ⌊q⌋

/-- Python `f"{x:0w}"` for a natural number: decimal digits zero-padded to
width `w`. -/
def padNat (w : ℕ) (n : ℕ) : String :=
  let s := Nat.repr n
  String.mk (List.replicate (w - s.length) '0') ++ s

/-- Python `f"{x:0w}"` for an integer (a minus sign counts toward the width). -/
def padInt (w : ℕ) (x : ℤ) : String :=
  if x < 0 then "-" ++ padNat (w - 1) x.natAbs else padNat w x.toNat

/-! ## backend/subtitle.py -/

/-- A segment dict `{"text": …, "start": …, "end": …}` as used by
`validate_and_merge_segments`, `generate_srt` and the aligner. -/
structure Seg where
  text : String
  start : ℚ
  «end» : ℚ
  deriving Repr, Inhabited

/-- `backend/subtitle.py::format_timestamp`, helper values.
`seconds_int = int(seconds)` (truncation, as Python `int()`). -/
def fmtSecondsInt (seconds : ℚ) : ℤ := pyInt seconds

/-- `millis = int((seconds - int(seconds)) * 1000)` from `format_timestamp`. -/
def fmtMillis (seconds : ℚ) : ℤ := pyInt ((seconds - pyInt seconds) * 1000)

/-- `minutes = seconds_int // 60` then `minutes %= 60` uses Python floor
division/modulo; the pre-`%=` value feeds the hours computation. -/
def fmtMinutesRaw (seconds : ℚ) : ℤ := (fmtSecondsInt seconds).fdiv 60

/-- `hours = minutes // 60`. -/
def fmtHours (seconds : ℚ) : ℤ := (fmtMinutesRaw seconds).fdiv 60

/-- `minutes %= 60`. -/
def fmtMinutes (seconds : ℚ) : ℤ := (fmtMinutesRaw seconds).fmod 60

/-- `seconds_int %= 60`. -/
def fmtSecs (seconds : ℚ) : ℤ := (fmtSecondsInt seconds).fmod 60

/-- `backend/subtitle.py::format_timestamp`: render a float time as
`HH:MM:SS,mmm`. -/
def format_timestamp (seconds : ℚ) : String :=
  padInt 2 (fmtHours seconds) ++ ":" ++ padInt 2 (fmtMinutes seconds) ++ ":" ++
    padInt 2 (fmtSecs seconds) ++ "," ++ padInt 3 (fmtMillis seconds)

/-- One SRT entry `f"{i}\n{start} --> {end}\n{text}\n"` from `generate_srt`. -/
def srtEntry (i : ℕ) (seg : Seg) : String :=
  toString i ++ "\n" ++ format_timestamp seg.start ++ " --> " ++
    format_timestamp seg.«end» ++ "\n" ++ seg.text ++ "\n"

/-- The `srt_lines` list of `generate_srt`: segments enumerated from 1. -/
def srtLines (segments : List Seg) : List String :=
  segments.enum.map fun p => srtEntry (p.1 + 1) p.2

/-- `backend/subtitle.py::generate_srt`: `"\n".join(srt_lines)`. -/
def generate_srt (segments : List Seg) : String :=
  String.intercalate "\n" (srtLines segments)

/-- `is_short` test of `validate_and_merge_segments`:
`len(text) < min_length or (end - start) < min_duration`. -/
def isShortSeg (minLength : ℕ) (minDuration : ℚ) (s : Seg) : Bool :=
  decide (s.text.length < minLength) || decide (s.«end» - s.start < minDuration)

/-- `can_merge` test of `validate_and_merge_segments`:
`len(combined_text) <= max_length and combined_duration <= max_duration`. -/
def canMergeSeg (maxLength : ℕ) (maxDuration : ℚ) (cur next : Seg) : Bool :=
  decide ((cur.text ++ " " ++ next.text).length ≤ maxLength) &&
    decide (next.«end» - cur.start ≤ maxDuration)

/-- The merged segment: `text = cur + " " + next`, `end = next.end`,
`start` unchanged. -/
def mergeSeg (cur next : Seg) : Seg :=
  { text := cur.text ++ " " ++ next.text, start := cur.start, «end» := next.«end» }

/-- The loop of `validate_and_merge_segments`: `cur` is the running
`current_seg`, the list argument the remaining `segments[1:]` suffix; flushed
segments are emitted in order. -/
def vamsLoop (maxLength minLength : ℕ) (maxDuration minDuration : ℚ) :
    Seg → List Seg → List Seg
  | cur, [] => [cur]
  | cur, next :: rest =>
    if isShortSeg minLength minDuration cur && canMergeSeg maxLength maxDuration cur next then
      vamsLoop maxLength minLength maxDuration minDuration (mergeSeg cur next) rest
    else
      cur :: vamsLoop maxLength minLength maxDuration minDuration next rest

/-- `backend/subtitle.py::validate_and_merge_segments` (defaults in the source:
`max_length=80, min_length=10, max_duration=10.0, min_duration=1.0`). -/
def validate_and_merge_segments (segments : List Seg) (maxLength : ℕ := 80)
    (minLength : ℕ := 10) (maxDuration : ℚ := 10) (minDuration : ℚ := 1) :
    List Seg :=
  match segments with
  | [] => []
  | s :: rest => vamsLoop maxLength minLength maxDuration minDuration s rest

/-! ## server/routers/audio.py: silence pre-split (process_audio_task) -/

/-- A pre-split segment: the dict
`{"text", "start", "end", "tokens", "timestamps"}` built by the silence
pre-split loop in `process_audio_task`. -/
structure PreSeg where
  text : String
  start : ℚ
  «end» : ℚ
  tokens : List String
  timestamps : List ℚ
  deriving Repr, Inhabited

/-- Flushing the current accumulator:
`start = current_timestamps[0] - 0.5 if current_timestamps[0] > 0.5 else 0.0`,
`end = last_end`.  The source guards with `if current_tokens:`. -/
def flushPreSeg (curTokens : List String) (curTs : List ℚ) (lastEnd : ℚ) :
    List PreSeg :=
  match curTokens with
  | [] => []
  | _ =>
    [{ text := String.join curTokens
       start := if curTs.headD 0 > 1/2 then curTs.headD 0 - 1/2 else 0
       «end» := lastEnd
       tokens := curTokens
       timestamps := curTs }]

/-- The silence pre-split loop over the remaining `(token, end_time)` pairs;
`i > 0` holds throughout (the first token is consumed by `presplitSegments`).
`lastEnd` is the previous token's end time. -/
def presplitLoop (curTokens : List String) (curTs : List ℚ) (lastEnd : ℚ) :
    List (String × ℚ) → List PreSeg
  | [] => flushPreSeg curTokens curTs lastEnd
  | (tok, e) :: rest =>
    if e - lastEnd > 2 then
      flushPreSeg curTokens curTs lastEnd ++ presplitLoop [tok] [e] e rest
    else
      presplitLoop (curTokens ++ [tok]) (curTs ++ [e]) e rest

/-- The silence pre-split of `process_audio_task`
(server/routers/audio.py lines 92–149): split the token stream whenever
`end_times[i] - end_times[i-1] > 2.0`. -/
def presplitSegments (tokens : List String) (timestamps : List ℚ) :
    List PreSeg :=
  match tokens.zip timestamps with
  | [] => []
  | (tok, e) :: rest => presplitLoop [tok] [e] e rest

/-! ## backend/asr.py -/

/-- First index of the minimum of a list (`np.argmin`); 0 on the empty list. -/
def argminFirst (l : List ℚ) : ℕ :=
  match l.min? with
  | none => 0
  | some m => l.findIdx (fun x => decide (x = m))

/-- Peak absolute amplitude of the `k`-th non-overlapping window of size `ws`
inside `segment` (`np.max` over `np.abs` of the window; samples are floats so
the fold with neutral element 0 returns the maximum of the absolute values). -/
def windowPeak (segment : List ℚ) (ws k : ℕ) : ℚ :=
  ((segment.drop (k * ws)).take ws).foldl (fun a x => max a |x|) 0

/-- The per-window peak energies `np.max(reshaped, axis=1)` for
`num` windows of size `ws`. -/
def windowEnergies (segment : List ℚ) (ws num : ℕ) : List ℚ :=
  (List.range num).map (windowPeak segment ws)

/-- One iteration's cut choice of `_find_split_points`, given the previous cut
`current`: the midpoint of the minimum-peak 0.1 s sub-window of the search
window, or the window's far end when the window holds no full sub-window. -/
def splitChoice (audio : List ℚ) (sampleRate chunkSamples current : ℕ) : ℕ :=
  let totalSamples := audio.length
  let searchStart := current + chunkSamples * 3 / 4
  let searchEnd := min (current + chunkSamples * 5 / 4) totalSamples
  let segment := (audio.drop searchStart).take (searchEnd - searchStart)
  let windowSize := sampleRate / 10
  let numWindows := segment.length / windowSize
  if numWindows = 0 then searchEnd
  else
    searchStart + argminFirst (windowEnergies segment windowSize numWindows) * windowSize
      + windowSize / 2

/-- The `while current_start + chunk_samples < total_samples` loop of
`_find_split_points`, collecting the appended `split_idx` values.  `fuel`
bounds the iteration count; each iteration advances `current` by at least
`chunk_samples * 3 / 4 ≥ 1` samples (for `chunk_samples ≥ 2`), so fuel
`total_samples + 1` is never exhausted.  The `int(chunk_samples * 0.75)` and
`int(chunk_samples * 1.25)` of the source are exact for the values in use
(`chunk_samples = 60 * sample_rate`) and are modelled by `* 3 / 4` and
`* 5 / 4` on ℕ; `int(0.1 * sample_rate)` is modelled by `sample_rate / 10`
(equal to the float computation at the rate 16000 the driver uses). -/
def findSplitLoop (audio : List ℚ) (sampleRate chunkSamples : ℕ) :
    ℕ → ℕ → List ℕ
  | 0, _ => []
  | fuel + 1, current =>
    let totalSamples := audio.length
    if current + chunkSamples < totalSamples then
      let searchStart := current + chunkSamples * 3 / 4
      if searchStart ≥ totalSamples then []
      else
        let searchEnd := min (current + chunkSamples * 5 / 4) totalSamples
        let segment := (audio.drop searchStart).take (searchEnd - searchStart)
        if segment.length = 0 then []
        else
          let splitIdx := splitChoice audio sampleRate chunkSamples current
          splitIdx :: findSplitLoop audio sampleRate chunkSamples fuel splitIdx
    else []

/-- `backend/asr.py::_find_split_points`: split indices at silence points near
chunk boundaries; the source returns `sorted(list(set(split_points)))`. -/
def _find_split_points (audio : List ℚ) (sampleRate : ℕ)
    (chunkDurationSec : ℕ := 60) : List ℕ :=
  let totalSamples := audio.length
  let chunkSamples := chunkDurationSec * sampleRate
  let rawPoints :=
    (0 :: findSplitLoop audio sampleRate chunkSamples (totalSamples + 1) 0) ++
      [totalSamples]
  (List.insertionSort (· ≤ ·) rawPoints).dedup

/-- The result of one recognizer call on a chunk (`stream.result`): the
recognizer is an external model, passed in as a function of the chunk
samples. -/
structure ChunkResult where
  text : String
  tokens : List String
  timestamps : List ℚ

/-- A stitched transcription result `{text, timestamps, tokens}`. -/
structure RawTranscript where
  text : String
  tokens : List String
  timestamps : List ℚ

/-- The per-chunk loop of `_transcribe_long_audio` over consecutive pairs of
split indices, accumulating `full_text_parts`, `all_tokens`,
`all_timestamps`. -/
def stitchChunks (audio : List ℚ) (sampleRate : ℕ)
    (recognize : List ℚ → ChunkResult) :
    List ℕ → List String × List String × List ℚ
  | startIdx :: endIdx :: rest =>
    let (parts, toks, ts) := stitchChunks audio sampleRate recognize (endIdx :: rest)
    let chunk := (audio.drop startIdx).take (endIdx - startIdx)
    if chunk.length < 1600 then (parts, toks, ts)
    else
      let result := recognize chunk
      let parts' := if result.text = "" then parts else result.text :: parts
      let timeOffset : ℚ := (startIdx : ℚ) / (sampleRate : ℚ)
      let ts' := if result.timestamps = [] then ts
        else result.timestamps.map (· + timeOffset) ++ ts
      let toks' := if result.tokens = [] then toks else result.tokens ++ toks
      (parts', toks', ts')
  | _ => ([], [], [])

/-- `backend/asr.py::ParakeetASR._transcribe_long_audio`: chunk at silence
points, recognize each chunk of at least 0.1 s (1600 samples), offset each
chunk's timestamps by `chunk_start / sample_rate`, and stitch. -/
def _transcribe_long_audio (audio : List ℚ) (sampleRate : ℕ)
    (recognize : List ℚ → ChunkResult) : RawTranscript :=
  let splitIndices := _find_split_points audio sampleRate 60
  let (parts, toks, ts) := stitchChunks audio sampleRate recognize splitIndices
  { text := String.intercalate " " parts, tokens := toks, timestamps := ts }

/-! ## backend/nlp.py: align_segments_with_tokens -/

/-- Python `"".join([c.lower() for c in s if c.isalnum()])` as a character
list. -/
def normChars (s : String) : List Char :=
  (s.toList.filter Char.isAlphanum).map Char.toLower

/-- Per-token timing info `{"start_time": …, "end_time": …}`. -/
structure TokenInfo where
  start_time : ℚ
  end_time : ℚ
  deriving Repr, Inhabited

/-- The start-time choice for one token in `align_segments_with_tokens`:
`max(0, end-0.5)` for the first token, `prev_end` otherwise unless the gap
exceeds 1 s, then clamped to be monotone (`start ≥ prev_end`). -/
def tokenStartOf (isFirst : Bool) (prevEnd e : ℚ) : ℚ :=
  let s :=
    if isFirst then max 0 (e - 1/2)
    else if e - prevEnd > 1 then max prevEnd (e - 1/2) else prevEnd
  if s < prevEnd then prevEnd else s

/-- The end-time clamp: `if end_time < start_time: end_time = start_time`. -/
def tokenEndOf (startT e : ℚ) : ℚ := if e < startT then startT else e

/-- The `token_infos` construction loop of `align_segments_with_tokens`. -/
def buildTokenInfos (isFirst : Bool) (prevEnd : ℚ) : List ℚ → List TokenInfo
  | [] => []
  | e :: rest =>
    let s' := tokenStartOf isFirst prevEnd e
    let e' := tokenEndOf s' e
    ⟨s', e'⟩ :: buildTokenInfos false e' rest

/-- The `char_to_token` table: one entry per character of each token. -/
def charToToken (tokens : List String) : List ℕ :=
  tokens.enum.flatMap fun p => List.replicate p.2.length p.1

/-- The enumerated alphanumeric characters of the full text (the loop that
builds `normalized_text` and `norm_to_orig_map` in lockstep). -/
def normPairs (fullText : String) : List (ℕ × Char) :=
  fullText.toList.enum.filter fun p => p.2.isAlphanum

/-- `normalized_text` as a character list. -/
def normalizedText (fullText : String) : List Char :=
  (normPairs fullText).map fun p => p.2.toLower

/-- `norm_to_orig_map`. -/
def normToOrig (fullText : String) : List ℕ :=
  (normPairs fullText).map Prod.fst

/-- Python `haystack.find(pat, start)` on character lists, as an `Option`:
the least index `i ≥ start` at which `pat` occurs. -/
def findFrom (hay pat : List Char) (start : ℕ) : Option ℕ :=
  ((List.range (hay.length + 1)).filter
    (fun i => decide (start ≤ i) && pat.isPrefixOf (hay.drop i))).head?

/-- The precomputed context of the per-piece alignment loop. -/
structure AlignCtx where
  norm : List Char
  n2o : List ℕ
  c2t : List ℕ
  infos : List TokenInfo

/-- `aligned_segments[-1]["end"] if aligned_segments else 0.0`. -/
def lastEndOf (segs : List Seg) : ℚ :=
  match segs.getLast? with
  | some s => s.«end»
  | none => 0

/-- The segment emitted for a matched piece: start time of the first matched
token, end time of the last matched token (clamped to `≥ start`). -/
def matchedSeg (ctx : AlignCtx) (part : String) (matchStart matchEnd : ℕ) :
    Seg :=
  let ps := (ctx.infos.getD (ctx.c2t.getD (ctx.n2o.getD matchStart 0) 0)
    default).start_time
  let pe := (ctx.infos.getD (ctx.c2t.getD (ctx.n2o.getD (matchEnd - 1) 0) 0)
    default).end_time
  ⟨part, ps, if pe < ps then ps else pe⟩

/-- One iteration of the `for part in parts` loop of
`align_segments_with_tokens`; the state is `(aligned_segments, search_pos)`. -/
def alignStep (ctx : AlignCtx) (st : List Seg × ℕ) (part : String) :
    List Seg × ℕ :=
  let segs := st.1
  let searchPos := st.2
  let partNorm := normChars part
  if partNorm = [] then st
  else
    let firstTry := findFrom ctx.norm partNorm searchPos
    let m := match firstTry with
      | some v => some v
      | none => findFrom ctx.norm partNorm 0
    match m with
    | none =>
      let s := lastEndOf segs
      (segs ++ [⟨part, s, s + 1/10⟩], searchPos)
    | some matchStart =>
      let matchEnd := matchStart + partNorm.length
      let matchEnd := if ctx.n2o.length < matchEnd then ctx.n2o.length else matchEnd
      if matchEnd = 0 then
        let s := lastEndOf segs
        (segs ++ [⟨part, s, s + 1/10⟩], searchPos)
      else
        (segs ++ [matchedSeg ctx part matchStart matchEnd], matchEnd)

/-- The alignment context for given tokens, timestamps and language joiner
(the source reads the joiner from the configured source language). -/
def mkAlignCtx (tokens : List String) (timestamps : List ℚ) (joiner : String) :
    AlignCtx :=
  let fullText := String.intercalate joiner tokens
  { norm := normalizedText fullText
    n2o := normToOrig fullText
    c2t := charToToken tokens
    infos := buildTokenInfos true 0 timestamps }

/-- `backend/nlp.py::align_segments_with_tokens`.  The early `return []`
branches are the fall-back-to-linear cases of the source. -/
def align_segments_with_tokens (parts tokens : List String)
    (timestamps : List ℚ) (joiner : String) : List Seg :=
  if tokens = [] ∨ timestamps = [] ∨ tokens.length ≠ timestamps.length then []
  else
    let fullText := String.intercalate joiner tokens
    if fullText = "" then []
    else if (charToToken tokens).length ≠ fullText.length then []
    else
      (parts.foldl (alignStep (mkAlignCtx tokens timestamps joiner)) ([], 0)).1

/-- Cursor-only simulation of the alignment loop: tracks `search_pos` and a
flag that stays `true` exactly while every piece with non-empty normalization
is found at or after the cursor (no restart-from-zero retry and no fallback
segment); on a miss the cursor is left unchanged, as in the source. -/
def alignCursorStep (norm : List Char) (mapLen : ℕ) (st : ℕ × Bool)
    (part : String) : ℕ × Bool :=
  let partNorm := normChars part
  if partNorm = [] then st
  else
    match findFrom norm partNorm st.1 with
    | some matchStart =>
      let matchEnd := matchStart + partNorm.length
      let matchEnd := if mapLen < matchEnd then mapLen else matchEnd
      if matchEnd = 0 then (st.1, false) else (matchEnd, st.2)
    | none => (st.1, false)

/-- All pieces are matched in cursor order (no rewind, no alignment miss). -/
def orderlyParts (norm : List Char) (mapLen : ℕ) (parts : List String) : Bool :=
  (parts.foldl (alignCursorStep norm mapLen) (0, true)).2

/-- The token start time the aligner reads for the normalized-text position
`m`: position `m` maps to an original character, that character to a token,
and the token to its `start_time`. -/
def tokenStartAt (ctx : AlignCtx) (m : ℕ) : ℚ :=
  (ctx.infos.getD (ctx.c2t.getD (ctx.n2o.getD m 0) 0) default).start_time

/-! ## backend/nlp.py: rule-based splitting (with the spaCy pipeline as an
oracle `String → Doc`) -/

/-- A spaCy token: surface text, trailing whitespace, coarse POS, dependency
label, index of the dependency head, punctuation flag, sentence-final flag. -/
structure SpacyToken where
  text : String
  ws : String
  pos : String
  dep : String
  headIdx : ℕ
  is_punct : Bool
  is_sent_end : Bool
  deriving Repr, Inhabited, DecidableEq

/-- A spaCy document: language code plus analyzed tokens. -/
structure Doc where
  lang : String
  toks : List SpacyToken
  deriving Repr, Inhabited

/-- spaCy `token.text_with_ws`. -/
def textWithWs (t : SpacyToken) : String := t.text ++ t.ws

/-- spaCy `doc.text`. -/
def docText (d : Doc) : String := String.join (d.toks.map textWithWs)

/-- spaCy `doc[a:b].text`: the span's text, excluding the final token's
trailing whitespace. -/
def spanText (d : Doc) (a b : ℕ) : String :=
  let ts := (d.toks.drop a).take (b - a)
  match ts.getLast? with
  | none => ""
  | some last => String.join (ts.dropLast.map textWithWs) ++ last.text

/-- Sentence spans of a document, closing a span after each sentence-final
token (spaCy `doc.sents`). -/
def sentSpansGo (n start : ℕ) : List (ℕ × SpacyToken) → List (ℕ × ℕ)
  | [] => if start < n then [(start, n)] else []
  | (i, t) :: rest =>
    if t.is_sent_end then (start, i + 1) :: sentSpansGo n (i + 1) rest
    else sentSpansGo n start rest

/-- spaCy `doc.sents` as index spans. -/
def sentSpans (d : Doc) : List (ℕ × ℕ) :=
  sentSpansGo d.toks.length 0 d.toks.enum

/-- `backend/nlp.py::is_valid_phrase`: the phrase has a subject (dependency
`nsubj`/`nsubjpass` or a pronoun) and a verb or auxiliary. -/
def is_valid_phrase (phrase : List SpacyToken) : Bool :=
  (phrase.any fun t =>
      decide (t.dep = "nsubj") || decide (t.dep = "nsubjpass") ||
        decide (t.pos = "PRON")) &&
  (phrase.any fun t => decide (t.pos = "VERB") || decide (t.pos = "AUX"))

/-- `backend/nlp.py::analyze_comma` for the comma at index `i`:
left window `doc[max(start, i-9):i]`, right window `doc[i+1:min(n, i+10)]`. -/
def analyze_comma (start : ℕ) (d : Doc) (i : ℕ) : Bool :=
  let lo := max start (i - 9)
  let leftPhrase := (d.toks.drop lo).take (i - lo)
  let rightPhrase := (d.toks.drop (i + 1)).take (min d.toks.length (i + 10) - (i + 1))
  let suitable := is_valid_phrase rightPhrase
  let leftWords := leftPhrase.filter fun t => !t.is_punct
  let rightWords := rightPhrase.takeWhile fun t => !t.is_punct
  if leftWords.length ≤ 3 ∨ rightWords.length ≤ 3 then false else suitable

/-- The token loop of `split_by_comma`, over the enumerated tokens; `start` is
the index after the last accepted comma. -/
def splitByCommaGo (d : Doc) (start : ℕ) : List (ℕ × SpacyToken) → List String
  | [] => [pyStrip (spanText d start d.toks.length)]
  | (i, t) :: rest =>
    if t.text = "," ∨ t.text = "" then
      if analyze_comma start d i then
        pyStrip (spanText d start i) :: splitByCommaGo d (i + 1) rest
      else splitByCommaGo d start rest
    else splitByCommaGo d start rest

/-- `backend/nlp.py::split_by_comma` (pass P1). -/
def split_by_comma (nlpF : String → Doc) (text : String) : List String :=
  let d := nlpF text
  (splitByCommaGo d 0 d.toks.enum).filter (· ≠ "")

/-- The German connector word list of `analyze_connectors`. -/
def germanConnectors : List String :=
  ["dass", "welche", "wo", "wann", "weil", "aber", "und", "oder"]

/-- `backend/nlp.py::analyze_connectors`, first component of the returned
pair (the second is never used): a German connector token is a split point
unless it is a determiner/pronoun attached to a nominal head; non-German
documents never split. -/
def analyze_connectors (d : Doc) (i : ℕ) : Bool :=
  if d.lang = "de" then
    let t := d.toks.getD i default
    if ¬ strLower t.text ∈ germanConnectors then false
    else if (t.dep = "det" ∨ t.dep = "pron") ∧
        ((d.toks.getD t.headIdx default).pos = "NOUN" ∨
          (d.toks.getD t.headIdx default).pos = "PROPN") then
      false
    else true
  else false

/-- The apostrophe character (written by code point to keep the source free of
quote-adjacent literals). -/
def apos : Char := Char.ofNat 39

/-- The English clitic tokens checked after a connector candidate:
`'s, 're, 've, 'll, 'd`. -/
def cliticTokens : List String :=
  [String.mk [apos, 's'], String.mk [apos, 'r', 'e'],
    String.mk [apos, 'v', 'e'], String.mk [apos, 'l', 'l'],
    String.mk [apos, 'd']]

/-- The token scan of one `split_by_connectors` round on one sentence: the
first index where a split fires (the Python loop `break`s there). -/
def connectorSplitIdx (d : Doc) (cw : ℕ) : List (ℕ × SpacyToken) → Option ℕ
  | [] => none
  | (i, _) :: rest =>
    let splitBefore := analyze_connectors d i
    if i + 1 < d.toks.length ∧ (d.toks.getD (i + 1) default).text ∈ cliticTokens then
      connectorSplitIdx d cw rest
    else
      let leftWords := ((d.toks.drop (i - cw)).take (i - (i - cw))).filter
        fun t => !t.is_punct
      let rightWords := ((d.toks.drop (i + 1)).take
          (min d.toks.length (i + cw + 1) - (i + 1))).filter fun t => !t.is_punct
      if cw ≤ leftWords.length ∧ cw ≤ rightWords.length ∧ splitBefore then some i
      else connectorSplitIdx d cw rest

/-- One sentence of one `while` round of `split_by_connectors`: on a split at
`i` the sentence contributes `doc[0:i]` and `doc[i:]` (stripped), else its
re-rendered full text; the flag records whether a split occurred. -/
def connectorsSentence (nlpF : String → Doc) (cw : ℕ) (sent : String) :
    List String × Bool :=
  let d := nlpF sent
  match connectorSplitIdx d cw d.toks.enum with
  | some i =>
    (pyStrip (spanText d 0 i) ::
      (if i < d.toks.length then [pyStrip (spanText d i d.toks.length)] else []),
      true)
  | none =>
    ((if 0 < d.toks.length then [pyStrip (spanText d 0 d.toks.length)] else []),
      false)

/-- One full round of the `while` loop of `split_by_connectors` over all
current sentences. -/
def connectorsPass (nlpF : String → Doc) (cw : ℕ) :
    List String → List String × Bool
  | [] => ([], false)
  | s :: rest =>
    let (l1, b1) := connectorsSentence nlpF cw s
    let (l2, b2) := connectorsPass nlpF cw rest
    (l1 ++ l2, b1 || b2)

/-- The `while` loop of `split_by_connectors`, with its hard iteration cap
(`max_iterations = 100`); when a round makes no split the previous sentence
list is returned, as in the source. -/
def connectorsLoopGo (nlpF : String → Doc) (cw : ℕ) :
    ℕ → List String → List String
  | 0, sents => sents
  | fuel + 1, sents =>
    let (new, occurred) := connectorsPass nlpF cw sents
    if occurred then connectorsLoopGo nlpF cw fuel new else sents

/-- `backend/nlp.py::split_by_connectors` (pass P2). -/
def split_by_connectors (nlpF : String → Doc) (cw : ℕ) (text : String) :
    List String :=
  let d := nlpF text
  connectorsLoopGo nlpF cw 100 [docText d]

/-- The split-eligibility test of the DP in `split_long_sentence` for a cut
ending at token `i-1`. -/
def dpTokenOk (d : Doc) (i : ℕ) : Bool :=
  let t := d.toks.getD (i - 1) default
  t.is_sent_end || decide (t.pos = "VERB") || decide (t.pos = "AUX") ||
    decide (t.dep = "ROOT")

/-- The inner `for j in range(max(0, i-100), i)` loop of the DP: returns the
updated `(dp[i], prev[i])`, starting from `(inf, 0)`; `none` models `inf`. -/
def dpInner (d : Doc) (dp : List (Option ℕ)) (i : ℕ) : Option ℕ × ℕ :=
  (List.range' (i - 100) (i - (i - 100))).foldl
    (fun acc j =>
      if 30 ≤ i - j ∧ (j = 0 ∨ dpTokenOk d i) then
        match dp.getD j none with
        | none => acc
        | some dj =>
          match acc.1 with
          | none => (some (dj + 1), j)
          | some cur => if dj + 1 < cur then (some (dj + 1), j) else acc
      else acc)
    (none, 0)

/-- The outer `for i in range(1, n+1)` loop building `dp` and `prev`. -/
def buildDpPrev (d : Doc) (n : ℕ) : List (Option ℕ) × List ℕ :=
  (List.range' 1 n).foldl
    (fun acc i =>
      let (v, p) := dpInner d acc.1 i
      (acc.1 ++ [v], acc.2 ++ [p]))
    ([some 0], [0])

/-- The `while i > 0` reconstruction loop of `split_long_sentence`; `prev`
entries are strictly below their index, so fuel `n + 1` is never exhausted. -/
def reconstructGo (tokens : List String) (prev : List ℕ) (joiner : String) :
    ℕ → ℕ → List String → List String
  | 0, _, acc => acc
  | fuel + 1, i, acc =>
    if i = 0 then acc
    else
      let j := prev.getD i 0
      reconstructGo tokens prev joiner fuel j
        (acc ++ [pyStrip (String.intercalate joiner ((tokens.drop j).take (i - j)))])

/-- `backend/nlp.py::split_long_sentence` (pass P3): DP root split with
minimum piece length 30 tokens; pieces are rejoined with the language
joiner. -/
def split_long_sentence (d : Doc) (joiner : String) : List String :=
  let tokens := d.toks.map (·.text)
  let n := tokens.length
  let prev := (buildDpPrev d n).2
  (reconstructGo tokens prev joiner (n + 1) n []).reverse

/-- Passes P0–P3 of `split_sentences` (backend/nlp.py lines 459–493): sentence
split, then comma, connector and root splits applied to parts still longer
than `max_len`. -/
def ruleBasedParts (nlpF : String → Doc) (joiner : String) (maxLen : ℕ)
    (text : String) : List String :=
  let d := nlpF text
  let parts0 := (sentSpans d).map fun p => pyStrip (spanText d p.1 p.2)
  let parts1 := parts0.flatMap fun part =>
    if maxLen < part.length then split_by_comma nlpF part else [part]
  let parts2 := parts1.flatMap fun part =>
    if maxLen < part.length then split_by_connectors nlpF 5 part else [part]
  parts2.flatMap fun part =>
    if maxLen < part.length then split_long_sentence (nlpF part) joiner else [part]

/-! ## backend/llm.py: split_text_by_meaning -/

/-- Outcome of the `chat_completion` call and of `json.loads` on the returned
content, modelling the external LLM service and the Python JSON decoder:
`raisesExn` is an exception propagating out of `chat_completion` (e.g. the
missing-API-key `ValueError`); `httpFailure` is `chat_completion` returning
`None` after a request exception; `missingFields` is a response without
`choices`/`message`/`content`; `unparsableContent` is a `json.JSONDecodeError`
on the (fence-stripped) content; `contentList l` is a successful decode of the
content as the list `l`. -/
inductive LLMOutcome where
  | raisesExn
  | httpFailure
  | missingFields
  | unparsableContent
  | contentList (parts : List String)
  deriving Repr, DecidableEq

/-- `backend/llm.py::split_text_by_meaning` as a function of the call outcome:
every non-exception failure path returns `[text]`; a successful JSON decode
returns the decoded list; an exception propagates (`Except.error`). -/
def split_text_by_meaning (text : String) :
    LLMOutcome → Except Unit (List String)
  | .raisesExn => .error ()
  | .httpFailure => .ok [text]
  | .missingFields => .ok [text]
  | .unparsableContent => .ok [text]
  | .contentList l => .ok l

/-- The `parts` computation of `split_sentences` for one segment
(backend/nlp.py lines 448–493): with `use_llm`, try the semantic splitter,
catching exceptions as `parts = []`; run the rule-based passes P0–P3 exactly
when `parts` is empty. -/
def splitSentencesParts (nlpF : String → Doc) (joiner : String)
    (outcome : LLMOutcome) (useLlm : Bool) (maxLen : ℕ) (text : String) :
    List String :=
  let parts : List String :=
    if useLlm then
      match split_text_by_meaning text outcome with
      | .error _ => []
      | .ok l => l
    else []
  if parts = [] then ruleBasedParts nlpF joiner maxLen text else parts

/-! ## server/routers/audio.py: process_audio endpoint -/

/-- Task status values (server/schemas.py::TaskStatus). -/
inductive TaskStatus where
  | pending
  | processing
  | completed
  | failed
  deriving Repr, DecidableEq, Inhabited

/-- A persisted task row (server/models.py::Task; named `TaskRow` here because
`Task` already exists in the Lean core library). -/
structure TaskRow where
  id : String
  status : TaskStatus
  filename : String
  filePath : String
  duration : Option ℚ
  progress : ℚ
  lastPlayedChunkIndex : ℤ
  message : Option String
  result : Option String
  createdAt : ℕ
  updatedAt : ℕ
  deriving Repr, Inhabited

/-- The HTTP response model (server/schemas.py::TaskResponse). -/
structure TaskResponse where
  task_id : String
  status : TaskStatus
  message : Option String
  progress : ℚ
  last_played_chunk_index : ℤ
  file_path : Option String
  filename : Option String
  duration : Option ℚ
  created_at : Option ℕ
  deriving Repr

/-- The `TaskResponse(...)` constructions of `process_audio`: every field read
from the task row, with the given message. -/
def taskResponseOf (t : TaskRow) (msg : Option String) : TaskResponse :=
  { task_id := t.id
    status := t.status
    message := msg
    progress := t.progress
    last_played_chunk_index := t.lastPlayedChunkIndex
    file_path := some t.filePath
    filename := some t.filename
    duration := t.duration
    created_at := some t.createdAt }

/-- Result of a `POST /api/audio/process/{task_id}` request: 404, or a
response together with the resulting task table and whether a background
worker was scheduled. -/
inductive ProcessOutcome where
  | notFound
  | handled (db : List TaskRow) (workerScheduled : Bool) (resp : TaskResponse)

/-- `server/routers/audio.py::process_audio`: a non-pending task is returned
as-is; a pending task is marked processing and a worker is scheduled. -/
def process_audio (db : List TaskRow) (task_id : String) : ProcessOutcome :=
  match db.find? (fun t => t.id = task_id) with
  | none => .notFound
  | some task =>
    if task.status ≠ TaskStatus.pending then
      .handled db false (taskResponseOf task task.message)
    else
      let task' := { task with status := TaskStatus.processing }
      .handled (db.map fun t => if t.id = task_id then task' else t) true
        (taskResponseOf task' (some "Processing started"))

/-! ## Concrete example data -/

/-- A two-sentence spaCy analysis of `"Aa. Bb."`. -/
def exDocTwoSents : Doc :=
  ⟨"de", [⟨"Aa.", " ", "X", "X", 0, false, true⟩,
    ⟨"Bb.", "", "X", "X", 1, false, true⟩]⟩

/-- A spaCy oracle mapping `"Aa. Bb."` to the two-sentence analysis. -/
def exNlp (s : String) : Doc :=
  if s = "Aa. Bb." then exDocTwoSents else ⟨"de", []⟩

/-- A completed task row. -/
def exTaskDone : TaskRow :=
  { id := "t1", status := TaskStatus.completed, filename := "a.wav"
    filePath := "uploads/t1_a.wav", duration := some 5, progress := 1
    lastPlayedChunkIndex := 0, message := some "done", result := some "{}"
    createdAt := 0, updatedAt := 0 }

/-- Well-formedness of a pre-split segment, as stated by the specification:
non-empty tokens, matching timestamp count, `start = max(0, first − 0.5)`,
`end` = last end-time, and no internal gap above 2 s. -/
def presegWellFormed (p : PreSeg) : Prop :=
  p.tokens ≠ [] ∧ p.tokens.length = p.timestamps.length ∧
  p.start = max 0 (p.timestamps.headD 0 - 1/2) ∧
  p.«end» = p.timestamps.getLastD 0 ∧
  List.Chain' (fun a b => b - a ≤ 2) p.timestamps

/-- Between consecutive pre-split segments the token-time gap exceeds 2 s. -/
def presegGapBoundary (a b : PreSeg) : Prop :=
  b.timestamps.headD 0 - a.timestamps.getLastD 0 > 2

/-- The alignment context for tokens `["ab", "cd"]`, end-times `[1, 2]` and
joiner `""`, written out. -/
def exCtx : AlignCtx :=
  ⟨['a', 'b', 'c', 'd'], [0, 1, 2, 3], [0, 0, 1, 1], [⟨1/2, 1⟩, ⟨1, 2⟩]⟩

-- ========================= THEOREMS =========================

/-- C1 (counterexample): with the LLM enabled, an unparsable chat response
does NOT make the pipeline fall back to the rule-based passes: the piece list
is `[text]`, not the rule-based split (here `["Aa.", "Bb."]`). -/
theorem C1_counterexample :
    splitSentencesParts exNlp " " LLMOutcome.unparsableContent true 80 "Aa. Bb." ≠
      ruleBasedParts exNlp " " 80 "Aa. Bb." := by decide

/-- C1 (amended): the rule-based fallback P0–P3 runs exactly when
`split_text_by_meaning` raises an exception (e.g. a missing API key) or
returns an empty list; when the HTTP call fails, the response lacks the
expected fields, or the content cannot be parsed as JSON,
`split_text_by_meaning` returns `[text]` and the pipeline keeps the original
text as the single piece, never invoking the rule-based splitter. -/
theorem C1_semantic_fallback (nlpF : String → Doc) (joiner : String)
    (maxLen : ℕ) (text : String) :
    splitSentencesParts nlpF joiner LLMOutcome.raisesExn true maxLen text =
      ruleBasedParts nlpF joiner maxLen text ∧
    splitSentencesParts nlpF joiner (LLMOutcome.contentList []) true maxLen text =
      ruleBasedParts nlpF joiner maxLen text ∧
    splitSentencesParts nlpF joiner LLMOutcome.httpFailure true maxLen text =
      [text] ∧
    splitSentencesParts nlpF joiner LLMOutcome.missingFields true maxLen text =
      [text] ∧
    splitSentencesParts nlpF joiner LLMOutcome.unparsableContent true maxLen text =
      [text] := by
  refine ⟨rfl, rfl, ?_, ?_, ?_⟩ <;> simp [splitSentencesParts, split_text_by_meaning]

/-- C3: `validate_and_merge_segments` (at its default thresholds) is the
single left-to-right fold described by the specification: `cur` is short iff
`len(cur.text) < 10` or its duration is `< 1.0 s`; `cur` and `next` merge iff
`cur` is short, the combined text has at most 80 characters and
`next.end - cur.start ≤ 10 s`; merging concatenates the texts with a space and
takes `next.end` keeping `cur.start`; otherwise `cur` is flushed and `next`
becomes the new `cur`. -/
theorem C3_validator_single_fold (cur next : Seg) (rest : List Seg) :
    validate_and_merge_segments [] = [] ∧
    validate_and_merge_segments [cur] = [cur] ∧
    validate_and_merge_segments (cur :: next :: rest) =
      (if (cur.text.length < 10 ∨ cur.«end» - cur.start < 1) ∧
          ((cur.text ++ " " ++ next.text).length ≤ 80 ∧
            next.«end» - cur.start ≤ 10) then
        validate_and_merge_segments
          ({ text := cur.text ++ " " ++ next.text, start := cur.start,
              «end» := next.«end» } :: rest)
      else cur :: validate_and_merge_segments (next :: rest)) := by
  refine ⟨rfl, rfl, ?_⟩
  by_cases h : (cur.text.length < 10 ∨ cur.«end» - cur.start < 1) ∧
      ((cur.text ++ " " ++ next.text).length ≤ 80 ∧ next.«end» - cur.start ≤ 10)
  · rw [if_pos h]
    have hb : (isShortSeg 10 1 cur && canMergeSeg 80 10 cur next) = true := by
      simp only [isShortSeg, canMergeSeg, Bool.and_eq_true, Bool.or_eq_true,
        decide_eq_true_eq]
      exact h
    show vamsLoop 80 10 10 1 cur (next :: rest) = _
    rw [vamsLoop, if_pos hb]
    rfl
  · rw [if_neg h]
    have hb : ¬ ((isShortSeg 10 1 cur && canMergeSeg 80 10 cur next) = true) := by
      simp only [isShortSeg, canMergeSeg, Bool.and_eq_true, Bool.or_eq_true,
        decide_eq_true_eq]
      exact h
    show vamsLoop 80 10 10 1 cur (next :: rest) = _
    rw [vamsLoop, if_neg hb]
    rfl

/-- C8: SRT entries are numbered consecutively from 1 (entry `k` carries index
`k+1`), and for every non-negative time the milliseconds field of
`format_timestamp` equals `⌊(seconds − ⌊seconds⌋)·1000⌋`, the timestamp being
rendered as `HH:MM:SS,mmm` from the zero-padded hour/minute/second/millisecond
components. -/
theorem C8_srt_numbering_and_millis (segments : List Seg) :
    (srtLines segments).length = segments.length ∧
    (∀ k, k < segments.length →
      (srtLines segments).getD k "" =
        toString (k + 1) ++ "\n" ++
          format_timestamp ((segments.getD k default).start) ++ " --> " ++
          format_timestamp ((segments.getD k default).«end») ++ "\n" ++
          (segments.getD k default).text ++ "\n") ∧
    (generate_srt segments = String.intercalate "\n" (srtLines segments)) ∧
    (∀ q : ℚ, 0 ≤ q →
      fmtMillis q = ⌊(q - ⌊q⌋) * 1000⌋ ∧
      format_timestamp q =
        padInt 2 (fmtHours q) ++ ":" ++ padInt 2 (fmtMinutes q) ++ ":" ++
          padInt 2 (fmtSecs q) ++ "," ++ padInt 3 (fmtMillis q)) := by
  refine ⟨by simp [srtLines], ?_, rfl, ?_⟩
  · intro k hk
    have hk' : k < (srtLines segments).length := by simpa [srtLines] using hk
    rw [List.getD_eq_getElem _ _ hk', List.getD_eq_getElem _ _ hk]
    simp [srtLines, srtEntry]
  · intro q hq
    have h0 : pyInt q = ⌊q⌋ := by
      simp [pyInt, not_lt.mpr hq]
    refine ⟨?_, rfl⟩
    have hfrac : (0 : ℚ) ≤ (q - ⌊q⌋) * 1000 := by
      have : (⌊q⌋ : ℚ) ≤ q := Int.floor_le q
      nlinarith
    rw [fmtMillis, h0]
    simp only [pyInt]
    rw [if_neg (not_lt.mpr hfrac)]

/-- C8 witness: instantiation at a one-segment list and `q = 5/2`. -/
theorem C8_srt_numbering_and_millis_witness :
    (srtLines [⟨"Hi", 0, 5/2⟩]).getD 0 "" =
      toString (0 + 1) ++ "\n" ++
        format_timestamp (([⟨"Hi", 0, 5/2⟩] : List Seg).getD 0 default).start ++
        " --> " ++
        format_timestamp (([⟨"Hi", 0, 5/2⟩] : List Seg).getD 0 default).«end» ++
        "\n" ++ (([⟨"Hi", 0, 5/2⟩] : List Seg).getD 0 default).text ++ "\n" ∧
    fmtMillis (5/2) = ⌊((5/2 : ℚ) - ⌊(5/2 : ℚ)⌋) * 1000⌋ :=
  ⟨(C8_srt_numbering_and_millis [⟨"Hi", 0, 5/2⟩]).2.1 0 (by norm_num),
    ((C8_srt_numbering_and_millis [⟨"Hi", 0, 5/2⟩]).2.2.2 (5/2) (by norm_num)).1⟩

/-- C9: a process request on an existing non-pending task is a no-op: the task
table is unchanged, no background worker is scheduled, and the response
reflects the task's current state. -/
theorem C9_process_nonpending_noop (db : List TaskRow) (task_id : String)
    (task : TaskRow)
    (hfind : db.find? (fun t => t.id = task_id) = some task)
    (hstatus : task.status ≠ TaskStatus.pending) :
    process_audio db task_id =
      ProcessOutcome.handled db false (taskResponseOf task task.message) := by
  simp [process_audio, hfind, hstatus]

/-- C9 witness: a completed task. -/
theorem C9_process_nonpending_noop_witness :
    process_audio [exTaskDone] "t1" =
      ProcessOutcome.handled [exTaskDone] false
        (taskResponseOf exTaskDone exTaskDone.message) :=
  C9_process_nonpending_noop [exTaskDone] "t1" exTaskDone (by rfl) (by decide)


/-- A non-empty accumulator flushes to a single segment. -/
theorem flushPreSeg_ne_nil (curT : List String) (curTs : List ℚ) (lastEnd : ℚ)
    (h : curT ≠ []) :
    flushPreSeg curT curTs lastEnd =
      [{ text := String.join curT
         start := if curTs.headD 0 > 1/2 then curTs.headD 0 - 1/2 else 0
         «end» := lastEnd, tokens := curT, timestamps := curTs }] := by
  cases curT with
  | nil => exact absurd rfl h
  | cons a l => rfl

/-- The flushed segment is well-formed. -/
theorem flushPreSeg_wf (curT : List String) (curTs : List ℚ) (lastEnd : ℚ)
    (hne : curT ≠ []) (hlen : curT.length = curTs.length)
    (hle : lastEnd = curTs.getLastD 0)
    (hch : List.Chain' (fun a b => b - a ≤ 2) curTs) :
    presegWellFormed
      { text := String.join curT
        start := if curTs.headD 0 > 1/2 then curTs.headD 0 - 1/2 else 0
        «end» := lastEnd, tokens := curT, timestamps := curTs } := by
  refine ⟨hne, hlen, ?_, hle, hch⟩
  show (if curTs.headD 0 > 1/2 then curTs.headD 0 - 1/2 else 0) =
    max 0 (curTs.headD 0 - 1/2)
  by_cases hgt : curTs.headD 0 > 1/2
  · rw [if_pos hgt, max_eq_right (by linarith)]
  · rw [if_neg hgt, eq_comm, max_eq_left (by push_neg at hgt; linarith)]

/-- `getLast?` of a non-empty list is its `getLastD`. -/
theorem getLast?_of_ne_nil (l : List ℚ) (h : l ≠ []) :
    l.getLast? = some (l.getLastD 0) := by
  cases l with
  | nil => exact absurd rfl h
  | cons a t =>
    rw [List.getLastD_eq_getLast?]
    cases h2 : (a :: t).getLast? with
    | none => rw [List.getLast?_eq_none_iff] at h2; exact absurd h2 (by simp)
    | some x => rfl

/-- Invariant-carrying specification of the silence pre-split loop. -/
theorem presplitLoop_spec (rest : List (String × ℚ)) :
    ∀ (curT : List String) (curTs : List ℚ) (lastEnd : ℚ),
    curT ≠ [] → curT.length = curTs.length →
    lastEnd = curTs.getLastD 0 →
    List.Chain' (fun a b => b - a ≤ 2) curTs →
    ∃ hd tl, presplitLoop curT curTs lastEnd rest = hd :: tl ∧
      hd.timestamps.headD 0 = curTs.headD 0 ∧
      (hd :: tl).flatMap (·.tokens) = curT ++ rest.map Prod.fst ∧
      (hd :: tl).flatMap (·.timestamps) = curTs ++ rest.map Prod.snd ∧
      (∀ p ∈ hd :: tl, presegWellFormed p) ∧
      List.Chain' presegGapBoundary (hd :: tl) := by
  induction rest with
  | nil =>
    intro curT curTs lastEnd hne hlen hle hch
    refine ⟨{ text := String.join curT
              start := if curTs.headD 0 > 1/2 then curTs.headD 0 - 1/2 else 0
              «end» := lastEnd, tokens := curT, timestamps := curTs },
      [], ?_, rfl, by simp, by simp, ?_, by simp⟩
    · show presplitLoop curT curTs lastEnd [] = _
      rw [presplitLoop, flushPreSeg_ne_nil curT curTs lastEnd hne]
    · intro p hp
      rw [List.mem_singleton] at hp
      subst hp
      exact flushPreSeg_wf curT curTs lastEnd hne hlen hle hch
  | cons pr rest ih =>
    obtain ⟨tok, e⟩ := pr
    intro curT curTs lastEnd hne hlen hle hch
    have hcurTs : curTs ≠ [] := by
      intro hTs
      apply hne
      rw [hTs] at hlen
      exact List.length_eq_zero.mp hlen
    by_cases hgap : e - lastEnd > 2
    · -- flush and restart from (tok, e)
      obtain ⟨hd', tl', heq', hhd', htok', hts', hwf', hchain'⟩ :=
        ih [tok] [e] e (by simp) (by simp) (by simp) (by simp)
      refine ⟨{ text := String.join curT
                start := if curTs.headD 0 > 1/2 then curTs.headD 0 - 1/2 else 0
                «end» := lastEnd, tokens := curT, timestamps := curTs },
        hd' :: tl', ?_, rfl, ?_, ?_, ?_, ?_⟩
      · show presplitLoop curT curTs lastEnd ((tok, e) :: rest) = _
        rw [presplitLoop, if_pos hgap, flushPreSeg_ne_nil curT curTs lastEnd hne,
          heq']
        rfl
      · rw [List.flatMap_cons, htok']
        simp
      · rw [List.flatMap_cons, hts']
        simp
      · intro p hp
        rcases List.mem_cons.mp hp with hp0 | hp1
        · subst hp0
          exact flushPreSeg_wf curT curTs lastEnd hne hlen hle hch
        · exact hwf' p hp1
      · rw [List.chain'_cons']
        refine ⟨?_, hchain'⟩
        intro y hy
        simp only [List.head?_cons, Option.mem_def, Option.some.injEq] at hy
        subst hy
        show hd'.timestamps.headD 0 -
          (({ text := String.join curT
              start := if curTs.headD 0 > 1/2 then curTs.headD 0 - 1/2 else 0
              «end» := lastEnd, tokens := curT,
              timestamps := curTs } : PreSeg)).timestamps.getLastD 0 > 2
      -- the flushed segment carries `curTs`, whose last entry is `lastEnd`
        rw [hhd']
        show e - curTs.getLastD 0 > 2
        rw [← hle]
        linarith
    · -- extend the current segment
      have hchainExt : List.Chain' (fun a b => b - a ≤ 2) (curTs ++ [e]) := by
        rw [List.chain'_append]
        refine ⟨hch, by simp, ?_⟩
        intro x hx y hy
        rw [getLast?_of_ne_nil curTs hcurTs, Option.mem_def,
          Option.some.injEq] at hx
        simp only [List.head?_cons, Option.mem_def, Option.some.injEq] at hy
        subst hy
        rw [← hx, ← hle]
        linarith [not_lt.mp hgap]
      obtain ⟨hd', tl', heq', hhd', htok', hts', hwf', hchain'⟩ :=
        ih (curT ++ [tok]) (curTs ++ [e]) e (by simp) (by simp [hlen])
          (by rw [List.getLastD_concat]) hchainExt
      refine ⟨hd', tl', ?_, ?_, ?_, ?_, hwf', hchain'⟩
      · show presplitLoop curT curTs lastEnd ((tok, e) :: rest) = _
        rw [presplitLoop, if_neg hgap, heq']
      · rw [hhd']
        cases curTs with
        | nil => exact absurd rfl hcurTs
        | cons a l => rfl
      · rw [htok']
        simp
      · rw [hts']
        simp

/-- C5: for every non-empty token list with as many end-times, the silence
pre-split partitions the tokens in order (their concatenation is the input),
opens a new segment exactly at gaps above 2 s (no internal gap exceeds 2 s,
every boundary gap does), and gives each segment
`start = max(0, first_end_time − 0.5)` and `end` = its last end-time. -/
theorem C5_silence_presplit (tokens : List String) (timestamps : List ℚ)
    (hne : tokens ≠ []) (hlen : tokens.length = timestamps.length) :
    (presplitSegments tokens timestamps).flatMap (·.tokens) = tokens ∧
    (presplitSegments tokens timestamps).flatMap (·.timestamps) = timestamps ∧
    (∀ p ∈ presplitSegments tokens timestamps, presegWellFormed p) ∧
    List.Chain' presegGapBoundary (presplitSegments tokens timestamps) := by
  cases tokens with
  | nil => exact absurd rfl hne
  | cons t ts =>
    cases timestamps with
    | nil => simp at hlen
    | cons e es =>
      have hlen' : ts.length = es.length := by simpa using hlen
      obtain ⟨hd, tl, heq, _, htok, hts, hwf, hchain⟩ :=
        presplitLoop_spec (ts.zip es) [t] [e] e (by simp) (by simp) (by simp)
          (by simp)
      have hps : presplitSegments (t :: ts) (e :: es) =
          presplitLoop [t] [e] e (ts.zip es) := rfl
      rw [hps, heq]
      refine ⟨?_, ?_, hwf, hchain⟩
      · rw [htok]
        simp [List.map_fst_zip ts es (le_of_eq hlen')]
      · rw [hts]
        simp [List.map_snd_zip ts es (ge_of_eq hlen')]

/-- C5 witness: tokens `A B C D` with end-times `1, 1.2, 5, 5.2` (a 3.8 s gap
before the third token). -/
theorem C5_silence_presplit_witness :
    (presplitSegments ["A", "B", "C", "D"] [1, 6/5, 5, 26/5]).flatMap (·.tokens) =
      ["A", "B", "C", "D"] ∧
    (presplitSegments ["A", "B", "C", "D"] [1, 6/5, 5, 26/5]).flatMap (·.timestamps) =
      [1, 6/5, 5, 26/5] ∧
    (∀ p ∈ presplitSegments ["A", "B", "C", "D"] [1, 6/5, 5, 26/5],
      presegWellFormed p) ∧
    List.Chain' presegGapBoundary
      (presplitSegments ["A", "B", "C", "D"] [1, 6/5, 5, 26/5]) :=
  C5_silence_presplit ["A", "B", "C", "D"] [1, 6/5, 5, 26/5] (by decide) rfl


/-- A piece with empty alphanumeric normalization leaves the aligner state
unchanged (`continue` in the source). -/
theorem alignStep_empty_norm (ctx : AlignCtx) (st : List Seg × ℕ) (part : String)
    (h : normChars part = []) : alignStep ctx st part = st := by
  simp [alignStep, h]

/-- Every segment appended by one aligner step carries the processed piece as
its text, and only pieces with non-empty normalization are appended. -/
theorem alignStep_text (ctx : AlignCtx) (st : List Seg × ℕ) (part : String) :
    ∀ s ∈ (alignStep ctx st part).1,
      s ∈ st.1 ∨ (s.text = part ∧ normChars part ≠ []) := by
  intro s hs
  by_cases h : normChars part = []
  · rw [alignStep_empty_norm ctx st part h] at hs
    exact Or.inl hs
  · simp only [alignStep, if_neg h] at hs
    repeat' split at hs
    all_goals
      rcases List.mem_append.mp hs with h1 | h2
    all_goals
      first
        | exact Or.inl h1
        | (rw [List.mem_singleton] at h2; subst h2; exact Or.inr ⟨rfl, h⟩)

/-- Along the aligner fold, every emitted segment's text has non-empty
normalization. -/
theorem alignFold_text (ctx : AlignCtx) (parts : List String) :
    ∀ st : List Seg × ℕ, (∀ s ∈ st.1, normChars s.text ≠ []) →
    ∀ s ∈ (parts.foldl (alignStep ctx) st).1, normChars s.text ≠ [] := by
  induction parts with
  | nil => intro st h s hs; exact h s hs
  | cons p ps ih =>
    intro st h s hs
    refine ih _ ?_ s hs
    intro s' hs'
    rcases alignStep_text ctx st p s' hs' with h1 | ⟨h2, h3⟩
    · exact h s' h1
    · rw [h2]; exact h3

/-- Every segment of the aligner output has a text with non-empty
normalization. -/
theorem align_mem_norm_ne (parts tokens : List String) (timestamps : List ℚ)
    (joiner : String) :
    ∀ seg ∈ align_segments_with_tokens parts tokens timestamps joiner,
      normChars seg.text ≠ [] := by
  intro seg hseg
  simp only [align_segments_with_tokens] at hseg
  by_cases h1 : tokens = [] ∨ timestamps = [] ∨ tokens.length ≠ timestamps.length
  · rw [if_pos h1] at hseg
    simp at hseg
  · rw [if_neg h1] at hseg
    by_cases h2 : String.intercalate joiner tokens = ""
    · rw [if_pos h2] at hseg
      simp at hseg
    · rw [if_neg h2] at hseg
      by_cases h3 :
          (charToToken tokens).length ≠ (String.intercalate joiner tokens).length
      · rw [if_pos h3] at hseg
        simp at hseg
      · rw [if_neg h3] at hseg
        exact alignFold_text _ parts ([], 0) (by simp) seg hseg

/-- C10: a piece whose alphanumeric-lowercase normalization is empty is
skipped by the aligner: removing it from the piece list leaves the whole
output (segments and cursor evolution) unchanged, and no output segment
carries its text. -/
theorem C10_empty_normalization_skipped (parts₁ parts₂ : List String)
    (p : String) (tokens : List String) (timestamps : List ℚ) (joiner : String)
    (hp : normChars p = []) :
    align_segments_with_tokens (parts₁ ++ p :: parts₂) tokens timestamps joiner =
      align_segments_with_tokens (parts₁ ++ parts₂) tokens timestamps joiner ∧
    ∀ seg ∈ align_segments_with_tokens (parts₁ ++ p :: parts₂) tokens timestamps
        joiner, seg.text ≠ p := by
  constructor
  · simp only [align_segments_with_tokens]
    by_cases h1 : tokens = [] ∨ timestamps = [] ∨ tokens.length ≠ timestamps.length
    · rw [if_pos h1, if_pos h1]
    · rw [if_neg h1, if_neg h1]
      by_cases h2 : String.intercalate joiner tokens = ""
      · rw [if_pos h2, if_pos h2]
      · rw [if_neg h2, if_neg h2]
        by_cases h3 :
            (charToToken tokens).length ≠ (String.intercalate joiner tokens).length
        · rw [if_pos h3, if_pos h3]
        · rw [if_neg h3, if_neg h3]
          rw [List.foldl_append, List.foldl_append, List.foldl_cons,
            alignStep_empty_norm _ _ p hp]
  · intro seg hseg hcontra
    apply align_mem_norm_ne (parts₁ ++ p :: parts₂) tokens timestamps joiner seg
      hseg
    rw [hcontra]
    exact hp

/-- C10 witness: the punctuation-only piece `"!?"` after a matched piece. -/
theorem C10_empty_normalization_skipped_witness :
    (align_segments_with_tokens (["ab"] ++ "!?" :: []) ["ab"] [1] "" =
      align_segments_with_tokens (["ab"] ++ []) ["ab"] [1] "") ∧
    ∀ seg ∈ align_segments_with_tokens (["ab"] ++ "!?" :: []) ["ab"] [1] "",
      seg.text ≠ "!?" :=
  C10_empty_normalization_skipped ["ab"] [] "!?" ["ab"] [1] "" (by decide)


/-- `token_infos` has one entry per timestamp. -/
theorem buildTokenInfos_length (ts : List ℚ) :
    ∀ (b : Bool) (p : ℚ), (buildTokenInfos b p ts).length = ts.length := by
  induction ts with
  | nil => intro b p; rfl
  | cons e rest ih =>
    intro b p
    simp only [buildTokenInfos, List.length_cons, ih]

/-- Clamping from below: `p ≤ (s if s ≥ p else p)`. -/
theorem clampGe (s p : ℚ) : p ≤ if s < p then p else s := by
  split
  · exact le_rfl
  · exact le_of_not_lt (by assumption)

/-- The chosen start time never precedes `prev_end`. -/
theorem tokenStartOf_ge (b : Bool) (p e : ℚ) : p ≤ tokenStartOf b p e := by
  simp only [tokenStartOf]
  exact clampGe _ _

/-- The clamped end time never precedes the start time. -/
theorem tokenEndOf_ge (s e : ℚ) : s ≤ tokenEndOf s e := by
  rw [tokenEndOf]
  split
  · exact le_rfl
  · exact le_of_not_lt (by assumption)

/-- Token timing info is monotone: every start time is at least the incoming
`prev_end`, each token satisfies `start ≤ end`, and start times are pairwise
non-decreasing. -/
theorem buildTokenInfos_facts (ts : List ℚ) :
    ∀ (b : Bool) (p : ℚ),
    (∀ i ∈ buildTokenInfos b p ts, p ≤ i.start_time ∧ i.start_time ≤ i.end_time) ∧
    (buildTokenInfos b p ts).Pairwise
      (fun a c => a.start_time ≤ c.start_time) := by
  induction ts with
  | nil => intro b p; exact ⟨by simp [buildTokenInfos], by simp [buildTokenInfos]⟩
  | cons e rest ih =>
    intro b p
    obtain ⟨ihAll, ihPw⟩ := ih false (tokenEndOf (tokenStartOf b p e) e)
    have hs : p ≤ tokenStartOf b p e := tokenStartOf_ge b p e
    have he : tokenStartOf b p e ≤ tokenEndOf (tokenStartOf b p e) e :=
      tokenEndOf_ge _ e
    rw [show buildTokenInfos b p (e :: rest) =
      ⟨tokenStartOf b p e, tokenEndOf (tokenStartOf b p e) e⟩ ::
        buildTokenInfos false (tokenEndOf (tokenStartOf b p e) e) rest from rfl]
    constructor
    · intro i hi
      rcases List.mem_cons.mp hi with h0 | h1
      · subst h0
        exact ⟨hs, he⟩
      · obtain ⟨h2, h3⟩ := ihAll i h1
        exact ⟨le_trans hs (le_trans he h2), h3⟩
    · rw [List.pairwise_cons]
      refine ⟨?_, ihPw⟩
      intro c hc
      exact le_trans he (ihAll c hc).1

/-- Pairwise order and bounds for the `enumFrom`-expansion underlying
`char_to_token`. -/
theorem enumFrom_flatMapRep_facts (ts : List String) :
    ∀ n : ℕ,
    ((List.enumFrom n ts).flatMap fun p =>
        List.replicate p.2.length p.1).Pairwise (· ≤ ·) ∧
    (∀ v ∈ (List.enumFrom n ts).flatMap fun p => List.replicate p.2.length p.1,
      n ≤ v ∧ v < n + ts.length) := by
  induction ts with
  | nil => intro n; exact ⟨by simp, by simp⟩
  | cons t rest ih =>
    intro n
    rw [List.enumFrom_cons]
    simp only [List.flatMap_cons]
    obtain ⟨ihPw, ihB⟩ := ih (n + 1)
    constructor
    · rw [List.pairwise_append]
      refine ⟨List.pairwise_replicate.mpr (Or.inr le_rfl), ihPw, ?_⟩
      intro a ha b hb
      rw [List.eq_of_mem_replicate ha]
      exact le_trans (Nat.le_succ n) (ihB b hb).1
    · intro v hv
      rcases List.mem_append.mp hv with h0 | h1
      · rw [List.eq_of_mem_replicate h0]
        simp only [List.length_cons]
        omega
      · obtain ⟨h2, h3⟩ := ihB v h1
        simp only [List.length_cons]
        omega

/-- `char_to_token` is non-decreasing. -/
theorem charToToken_pairwise (tokens : List String) :
    (charToToken tokens).Pairwise (· ≤ ·) :=
  (enumFrom_flatMapRep_facts tokens 0).1

/-- `char_to_token` entries index into the token list. -/
theorem charToToken_bound (tokens : List String) :
    ∀ v ∈ charToToken tokens, v < tokens.length := by
  intro v hv
  have := (enumFrom_flatMapRep_facts tokens 0).2 v hv
  omega

/-- `enumFrom` has strictly increasing indices. -/
theorem enumFrom_pairwise_fst (l : List Char) :
    ∀ n : ℕ, (List.enumFrom n l).Pairwise fun a b => a.1 < b.1 := by
  induction l with
  | nil => intro n; simp
  | cons c rest ih =>
    intro n
    rw [List.enumFrom_cons, List.pairwise_cons]
    exact ⟨fun b hb => Nat.lt_of_lt_of_le (Nat.lt_succ_self n)
      (List.le_fst_of_mem_enumFrom hb), ih (n + 1)⟩

/-- `norm_to_orig_map` is strictly increasing. -/
theorem normToOrig_pairwise (fullText : String) :
    (normToOrig fullText).Pairwise (· < ·) := by
  rw [normToOrig, List.pairwise_map]
  exact (enumFrom_pairwise_fst fullText.toList 0).filter _

/-- `norm_to_orig_map` entries index into the full text. -/
theorem normToOrig_bound (fullText : String) :
    ∀ v ∈ normToOrig fullText, v < fullText.length := by
  intro v hv
  rw [normToOrig, List.mem_map] at hv
  obtain ⟨p, hp, hfst⟩ := hv
  rw [normPairs, List.mem_filter] at hp
  have := List.fst_lt_add_of_mem_enumFrom hp.1
  subst hfst
  simpa using this

/-- `normalized_text` and `norm_to_orig_map` have the same length. -/
theorem normalizedText_length (fullText : String) :
    (normalizedText fullText).length = (normToOrig fullText).length := by
  simp [normalizedText, normToOrig]

/-- A successful `find` lands at or after the requested start, with the whole
pattern inside the haystack. -/
theorem findFrom_some (hay pat : List Char) (start i : ℕ)
    (h : findFrom hay pat start = some i) :
    start ≤ i ∧ pat.isPrefixOf (hay.drop i) ∧ i + pat.length ≤ hay.length := by
  have hmem := List.mem_of_mem_head? h
  rw [List.mem_filter] at hmem
  obtain ⟨hrange, hpred⟩ := hmem
  rw [Bool.and_eq_true, decide_eq_true_eq] at hpred
  refine ⟨hpred.1, hpred.2, ?_⟩
  have hpre : pat <+: hay.drop i := List.isPrefixOf_iff_prefix.mp hpred.2
  have hlen := hpre.length_le
  rw [List.length_drop] at hlen
  have : i ≤ hay.length := by
    rw [List.mem_range] at hrange
    omega
  omega


/-- The cursor simulation's flag component never recovers once false. -/
theorem alignCursorStep_snd_false (norm : List Char) (len : ℕ) (st : ℕ × Bool)
    (p : String) (h : st.2 = false) :
    (alignCursorStep norm len st p).2 = false := by
  obtain ⟨c, b⟩ := st
  simp only at h
  subst h
  simp only [alignCursorStep]
  repeat' split
  all_goals rfl

/-- A false flag propagates through the whole cursor fold. -/
theorem cursorFold_false (norm : List Char) (len : ℕ) (parts : List String) :
    ∀ st : ℕ × Bool, st.2 = false →
    (parts.foldl (alignCursorStep norm len) st).2 = false := by
  induction parts with
  | nil => intro st h; exact h
  | cons p ps ih =>
    intro st h
    rw [List.foldl_cons]
    exact ih _ (alignCursorStep_snd_false norm len st p h)

/-- Orderly-run monotonicity of the alignment fold: if every remaining piece
is found at or after the running cursor, the start times of the emitted
segments never decrease. -/
theorem alignFold_mono (ctx : AlignCtx)
    (F1 : ctx.n2o.Pairwise (· < ·))
    (F2 : ∀ v ∈ ctx.n2o, v < ctx.c2t.length)
    (F3 : ctx.c2t.Pairwise (· ≤ ·))
    (F4 : ∀ v ∈ ctx.c2t, v < ctx.infos.length)
    (F5 : ctx.infos.Pairwise fun a b => a.start_time ≤ b.start_time)
    (F6 : ctx.norm.length = ctx.n2o.length)
    (parts : List String) :
    ∀ st : List Seg × ℕ,
    List.Chain' (fun a b => a.start ≤ b.start) st.1 →
    (∀ last ∈ st.1.getLast?, ∀ m, st.2 ≤ m → m < ctx.n2o.length →
      last.start ≤ tokenStartAt ctx m) →
    (parts.foldl (alignCursorStep ctx.norm ctx.n2o.length) (st.2, true)).2 = true →
    List.Chain' (fun a b => a.start ≤ b.start)
      (parts.foldl (alignStep ctx) st).1 := by
  induction parts with
  | nil => intro st hch _ _; exact hch
  | cons p ps ih =>
    intro st hch hP hflag
    rw [List.foldl_cons] at hflag ⊢
    by_cases hnorm : normChars p = []
    · rw [alignStep_empty_norm ctx st p hnorm]
      have hsim : alignCursorStep ctx.norm ctx.n2o.length (st.2, true) p =
          (st.2, true) := by
        simp [alignCursorStep, hnorm]
      rw [hsim] at hflag
      exact ih st hch hP hflag
    · cases hfind : findFrom ctx.norm (normChars p) st.2 with
      | none =>
        exfalso
        have hsim : alignCursorStep ctx.norm ctx.n2o.length (st.2, true) p =
            (st.2, false) := by
          simp [alignCursorStep, hnorm, hfind]
        rw [hsim,
          cursorFold_false ctx.norm ctx.n2o.length ps (st.2, false) rfl] at hflag
        exact Bool.false_ne_true hflag
      | some ms =>
        obtain ⟨hms_ge, _, hms_le⟩ :=
          findFrom_some ctx.norm (normChars p) st.2 ms hfind
        have hlen_pn : 0 < (normChars p).length := List.length_pos.mpr hnorm
        have hmE_le : ms + (normChars p).length ≤ ctx.n2o.length := by
          rw [← F6]; exact hms_le
        have hms_lt : ms < ctx.n2o.length := by omega
        have hmE_pos : ¬ ms + (normChars p).length = 0 := by omega
        have hstep : alignStep ctx st p =
            (st.1 ++ [matchedSeg ctx p ms (ms + (normChars p).length)],
              ms + (normChars p).length) := by
          simp only [alignStep, if_neg hnorm, hfind]
          rw [if_neg (not_lt.mpr hmE_le), if_neg hmE_pos]
        rw [hstep]
        have hsim : alignCursorStep ctx.norm ctx.n2o.length (st.2, true) p =
            (ms + (normChars p).length, true) := by
          simp only [alignCursorStep, if_neg hnorm, hfind]
          rw [if_neg (not_lt.mpr hmE_le), if_neg hmE_pos]
        rw [hsim] at hflag
        have hmono : ∀ m, ms ≤ m → m < ctx.n2o.length →
            tokenStartAt ctx ms ≤ tokenStartAt ctx m := by
          intro m hm hmlt
          rcases eq_or_lt_of_le hm with rfl | hlt
          · exact le_rfl
          · have hmsn : ms < ctx.n2o.length := by omega
            have ho : ctx.n2o.getD ms 0 < ctx.n2o.getD m 0 := by
              rw [List.getD_eq_getElem _ _ hmsn, List.getD_eq_getElem _ _ hmlt]
              exact List.pairwise_iff_getElem.mp F1 ms m hmsn hmlt hlt
            have hoMem1 : ctx.n2o.getD ms 0 ∈ ctx.n2o := by
              rw [List.getD_eq_getElem _ _ hmsn]; exact List.getElem_mem hmsn
            have hoMem2 : ctx.n2o.getD m 0 ∈ ctx.n2o := by
              rw [List.getD_eq_getElem _ _ hmlt]; exact List.getElem_mem hmlt
            have hc : ctx.c2t.getD (ctx.n2o.getD ms 0) 0 ≤
                ctx.c2t.getD (ctx.n2o.getD m 0) 0 := by
              rw [List.getD_eq_getElem _ _ (F2 _ hoMem1),
                List.getD_eq_getElem _ _ (F2 _ hoMem2)]
              exact List.pairwise_iff_getElem.mp F3 _ _ (F2 _ hoMem1)
                (F2 _ hoMem2) ho
            have hcMem1 : ctx.c2t.getD (ctx.n2o.getD ms 0) 0 ∈ ctx.c2t := by
              rw [List.getD_eq_getElem _ _ (F2 _ hoMem1)]
              exact List.getElem_mem (F2 _ hoMem1)
            have hcMem2 : ctx.c2t.getD (ctx.n2o.getD m 0) 0 ∈ ctx.c2t := by
              rw [List.getD_eq_getElem _ _ (F2 _ hoMem2)]
              exact List.getElem_mem (F2 _ hoMem2)
            rcases eq_or_lt_of_le hc with heq | hlt2
            · simp only [tokenStartAt]
              rw [heq]
            · simp only [tokenStartAt]
              rw [List.getD_eq_getElem _ _ (F4 _ hcMem1),
                List.getD_eq_getElem _ _ (F4 _ hcMem2)]
              exact List.pairwise_iff_getElem.mp F5 _ _ (F4 _ hcMem1)
                (F4 _ hcMem2) hlt2
        have hseg_start : (matchedSeg ctx p ms (ms + (normChars p).length)).start =
            tokenStartAt ctx ms := rfl
        have hch' : List.Chain' (fun a b => a.start ≤ b.start)
            (st.1 ++ [matchedSeg ctx p ms (ms + (normChars p).length)]) := by
          rw [List.chain'_append]
          refine ⟨hch, List.chain'_singleton _, ?_⟩
          intro x hx y hy
          simp only [List.head?_cons, Option.mem_def, Option.some.injEq] at hy
          subst hy
          rw [hseg_start]
          exact hP x hx ms hms_ge hms_lt
        have hP' : ∀ last ∈
            (st.1 ++ [matchedSeg ctx p ms (ms + (normChars p).length)]).getLast?,
            ∀ m, ms + (normChars p).length ≤ m → m < ctx.n2o.length →
              last.start ≤ tokenStartAt ctx m := by
          intro last hlast m hm hmlt
          rw [List.getLast?_concat, Option.mem_def, Option.some.injEq] at hlast
          subst hlast
          rw [hseg_start]
          exact hmono m (by omega) hmlt
        exact ih (st.1 ++ [matchedSeg ctx p ms (ms + (normChars p).length)],
          ms + (normChars p).length) hch' hP' hflag


/-- A matched segment satisfies `start ≤ end` (the clamp in the source). -/
theorem matchedSeg_start_le (ctx : AlignCtx) (part : String) (a b : ℕ) :
    (matchedSeg ctx part a b).start ≤ (matchedSeg ctx part a b).«end» := by
  simp only [matchedSeg]
  exact clampGe _ _

/-- Every segment appended by one aligner step satisfies `start ≤ end`. -/
theorem alignStep_start_le (ctx : AlignCtx) (st : List Seg × ℕ) (part : String) :
    ∀ s ∈ (alignStep ctx st part).1, s ∈ st.1 ∨ s.start ≤ s.«end» := by
  intro s hs
  by_cases h : normChars part = []
  · rw [alignStep_empty_norm ctx st part h] at hs
    exact Or.inl hs
  · simp only [alignStep, if_neg h] at hs
    repeat' split at hs
    all_goals rcases List.mem_append.mp hs with h1 | h2
    all_goals first
      | exact Or.inl h1
      | (rw [List.mem_singleton] at h2
         subst h2
         right
         dsimp only
         linarith)
      | (rw [List.mem_singleton] at h2
         subst h2
         exact Or.inr (matchedSeg_start_le ctx part _ _))

/-- Along the aligner fold, every emitted segment satisfies `start ≤ end`. -/
theorem alignFold_start_le (ctx : AlignCtx) (parts : List String) :
    ∀ st : List Seg × ℕ, (∀ s ∈ st.1, s.start ≤ s.«end») →
    ∀ s ∈ (parts.foldl (alignStep ctx) st).1, s.start ≤ s.«end» := by
  induction parts with
  | nil => intro st h s hs; exact h s hs
  | cons p ps ih =>
    intro st h s hs
    refine ih _ ?_ s hs
    intro s' hs'
    rcases alignStep_start_le ctx st p s' hs' with h1 | h2
    · exact h s' h1
    · exact h2

/-- C2 (amended): every segment emitted by the token-timestamp aligner
satisfies `start ≤ end`; and when every piece (with non-empty normalization)
is found in the normalized text at or after the running cursor — no
restart-from-zero retry and no fallback segment — the emitted start values are
non-decreasing. -/
theorem C2_aligner_invariants (parts tokens : List String)
    (timestamps : List ℚ) (joiner : String) :
    (∀ seg ∈ align_segments_with_tokens parts tokens timestamps joiner,
      seg.start ≤ seg.«end») ∧
    (orderlyParts (mkAlignCtx tokens timestamps joiner).norm
        (mkAlignCtx tokens timestamps joiner).n2o.length parts = true →
      List.Chain' (fun a b => a.start ≤ b.start)
        (align_segments_with_tokens parts tokens timestamps joiner)) := by
  constructor
  · intro seg hseg
    simp only [align_segments_with_tokens] at hseg
    by_cases h1 : tokens = [] ∨ timestamps = [] ∨ tokens.length ≠ timestamps.length
    · rw [if_pos h1] at hseg
      simp at hseg
    · rw [if_neg h1] at hseg
      by_cases h2 : String.intercalate joiner tokens = ""
      · rw [if_pos h2] at hseg
        simp at hseg
      · rw [if_neg h2] at hseg
        by_cases h3 :
            (charToToken tokens).length ≠ (String.intercalate joiner tokens).length
        · rw [if_pos h3] at hseg
          simp at hseg
        · rw [if_neg h3] at hseg
          exact alignFold_start_le _ parts ([], 0) (by simp) seg hseg
  · intro horder
    simp only [align_segments_with_tokens]
    by_cases h1 : tokens = [] ∨ timestamps = [] ∨ tokens.length ≠ timestamps.length
    · rw [if_pos h1]
      simp
    · rw [if_neg h1]
      by_cases h2 : String.intercalate joiner tokens = ""
      · rw [if_pos h2]
        simp
      · rw [if_neg h2]
        by_cases h3 :
            (charToToken tokens).length ≠ (String.intercalate joiner tokens).length
        · rw [if_pos h3]
          simp
        · rw [if_neg h3]
          push_neg at h1 h3
          refine alignFold_mono (mkAlignCtx tokens timestamps joiner)
            (normToOrig_pairwise _) ?_ (charToToken_pairwise tokens) ?_
            ((buildTokenInfos_facts timestamps true 0).2)
            (normalizedText_length _) parts ([], 0) (by simp) (by simp) horder
          · intro v hv
            show v < (charToToken tokens).length
            rw [h3]
            exact normToOrig_bound _ v hv
          · intro v hv
            show v < (buildTokenInfos true 0 timestamps).length
            rw [buildTokenInfos_length, ← h1.2.2]
            exact charToToken_bound tokens v hv

set_option maxHeartbeats 2000000 in
/-- C2 witness: two tokens, two pieces matched in order. -/
theorem C2_aligner_invariants_witness :
    List.Chain' (fun a b => a.start ≤ b.start)
      (align_segments_with_tokens ["ab", "cd"] ["ab", "cd"] [1, 2] "") :=
  (C2_aligner_invariants ["ab", "cd"] ["ab", "cd"] [1, 2] "").2 (by decide)


/-- One aligner step on a piece found at or after the cursor. -/
theorem alignStep_matched (ctx : AlignCtx) (st : List Seg × ℕ) (part : String)
    (ms : ℕ) (hnorm : ¬ normChars part = [])
    (hfind : findFrom ctx.norm (normChars part) st.2 = some ms)
    (hle : ms + (normChars part).length ≤ ctx.n2o.length)
    (hpos : ¬ ms + (normChars part).length = 0) :
    alignStep ctx st part =
      (st.1 ++ [matchedSeg ctx part ms (ms + (normChars part).length)],
        ms + (normChars part).length) := by
  simp only [alignStep, if_neg hnorm, hfind]
  rw [if_neg (not_lt.mpr hle), if_neg hpos]

/-- One aligner step on a piece missed at the cursor but found from the start
(the rewinding retry of the source). -/
theorem alignStep_matched_retry (ctx : AlignCtx) (st : List Seg × ℕ)
    (part : String) (ms : ℕ) (hnorm : ¬ normChars part = [])
    (hmiss : findFrom ctx.norm (normChars part) st.2 = none)
    (hfind0 : findFrom ctx.norm (normChars part) 0 = some ms)
    (hle : ms + (normChars part).length ≤ ctx.n2o.length)
    (hpos : ¬ ms + (normChars part).length = 0) :
    alignStep ctx st part =
      (st.1 ++ [matchedSeg ctx part ms (ms + (normChars part).length)],
        ms + (normChars part).length) := by
  simp only [alignStep, if_neg hnorm, hmiss, hfind0]
  rw [if_neg (not_lt.mpr hle), if_neg hpos]

/-- C2 (counterexample): with tokens `["ab", "cd"]` at end-times `[1, 2]` and
pieces `["cd", "ab"]` (well-formed: equal lengths, non-decreasing timestamps),
the aligner's restart-from-zero retry makes the second segment start at 0.5
after a first segment starting at 1: the emitted starts are NOT
non-decreasing. -/
theorem C2_counterexample :
    ¬ List.Chain' (fun a b => a.start ≤ b.start)
      (align_segments_with_tokens ["cd", "ab"] ["ab", "cd"] [1, 2] "") := by
  have h1 : tokenStartOf true 0 1 = 1/2 := by
    simp only [tokenStartOf]
    norm_num
  have h2 : tokenEndOf (1/2 : ℚ) 1 = 1 := by
    simp only [tokenEndOf]
    norm_num
  have h3 : tokenStartOf false 1 2 = 1 := by
    simp only [tokenStartOf]
    norm_num
  have h4 : tokenEndOf (1 : ℚ) 2 = 2 := by
    simp only [tokenEndOf]
    norm_num
  have hinfos : buildTokenInfos true 0 [1, 2] = [⟨1/2, 1⟩, ⟨1, 2⟩] := by
    rw [show buildTokenInfos true 0 [1, 2] =
      ⟨tokenStartOf true 0 1, tokenEndOf (tokenStartOf true 0 1) 1⟩ ::
        buildTokenInfos false (tokenEndOf (tokenStartOf true 0 1) 1) [2]
      from rfl]
    rw [h1, h2]
    rw [show buildTokenInfos false 1 [2] =
      ⟨tokenStartOf false 1 2, tokenEndOf (tokenStartOf false 1 2) 2⟩ ::
        buildTokenInfos false (tokenEndOf (tokenStartOf false 1 2) 2) []
      from rfl]
    rw [h3, h4]
    rfl
  have hctx : mkAlignCtx ["ab", "cd"] [1, 2] "" = exCtx := by
    simp only [mkAlignCtx, exCtx, AlignCtx.mk.injEq]
    exact ⟨by decide, by decide, by decide, hinfos⟩
  have hm1 : matchedSeg exCtx "cd" 2 4 = ⟨"cd", 1, 2⟩ := by
    rw [show matchedSeg exCtx "cd" 2 4 =
      ⟨"cd", 1, if (2 : ℚ) < 1 then (1 : ℚ) else 2⟩ from rfl]
    rw [if_neg (by norm_num)]
  have hm2 : matchedSeg exCtx "ab" 0 2 = ⟨"ab", 1/2, 1⟩ := by
    rw [show matchedSeg exCtx "ab" 0 2 =
      ⟨"ab", 1/2, if (1 : ℚ) < 1/2 then (1/2 : ℚ) else 1⟩ from rfl]
    rw [if_neg (by norm_num)]
  have hres : align_segments_with_tokens ["cd", "ab"] ["ab", "cd"] [1, 2] "" =
      [⟨"cd", 1, 2⟩, ⟨"ab", 1/2, 1⟩] := by
    simp only [align_segments_with_tokens]
    rw [if_neg (by simp : ¬ ((["ab", "cd"] : List String) = [] ∨
      ([1, 2] : List ℚ) = [] ∨
      (["ab", "cd"] : List String).length ≠ ([1, 2] : List ℚ).length))]
    rw [if_neg (by decide : ¬ String.intercalate "" ["ab", "cd"] = "")]
    rw [if_neg (by decide : ¬ (charToToken ["ab", "cd"]).length ≠
      (String.intercalate "" ["ab", "cd"]).length)]
    rw [hctx, List.foldl_cons, List.foldl_cons, List.foldl_nil]
    rw [alignStep_matched exCtx ([], 0) "cd" 2 (by decide) (by decide)
      (by decide) (by decide)]
    rw [(by decide : 2 + (normChars "cd").length = 4)]
    rw [alignStep_matched_retry exCtx ([] ++ [matchedSeg exCtx "cd" 2 4], 4)
      "ab" 0 (by decide) (by decide) (by decide) (by decide) (by decide)]
    rw [(by decide : 0 + (normChars "ab").length = 2)]
    rw [hm1, hm2]
    rfl
  rw [hres]
  intro hchain
  rw [List.chain'_cons] at hchain
  have hcontra : (1 : ℚ) ≤ 1/2 := hchain.1
  norm_num at hcontra


/-- Along a merge run the flushed head keeps the initial `start`, its text
only grows, and — when the input `end` values are non-decreasing — its `end`
only grows. -/
theorem vamsLoop_head (maxLength minLength : ℕ) (maxDuration minDuration : ℚ) :
    ∀ (rest : List Seg) (cur : Seg),
    List.Chain' (fun a b => a.«end» ≤ b.«end») (cur :: rest) →
    ∃ a t, vamsLoop maxLength minLength maxDuration minDuration cur rest = a :: t ∧
      a.start = cur.start ∧ cur.text.length ≤ a.text.length ∧
      cur.«end» ≤ a.«end» := by
  intro rest
  induction rest with
  | nil =>
    intro cur _
    exact ⟨cur, [], rfl, rfl, le_rfl, le_rfl⟩
  | cons next rest' ih =>
    intro cur hch
    rw [List.chain'_cons] at hch
    obtain ⟨hen, hch'⟩ := hch
    by_cases hcond : (isShortSeg minLength minDuration cur &&
        canMergeSeg maxLength maxDuration cur next) = true
    · have hchm : List.Chain' (fun a b => a.«end» ≤ b.«end»)
          (mergeSeg cur next :: rest') := by
        rw [List.chain'_cons'] at hch' ⊢
        exact ⟨fun y hy => hch'.1 y hy, hch'.2⟩
      obtain ⟨a, t, heq, hstart, hlen, hend⟩ := ih (mergeSeg cur next) hchm
      refine ⟨a, t, ?_, ?_, ?_, ?_⟩
      · rw [vamsLoop, if_pos hcond]
        exact heq
      · rw [hstart]; rfl
      · refine le_trans ?_ hlen
        show cur.text.length ≤ (cur.text ++ " " ++ next.text).length
        rw [String.length_append, String.length_append]
        omega
      · exact le_trans hen hend
    · refine ⟨cur, vamsLoop maxLength minLength maxDuration minDuration next rest',
        ?_, rfl, le_rfl, le_rfl⟩
      rw [vamsLoop, if_neg hcond]

/-- For inputs with non-decreasing `end` values, no adjacent pair of the
validator/merger output satisfies the merge condition. -/
theorem vamsLoop_no_merge (maxLength minLength : ℕ)
    (maxDuration minDuration : ℚ) :
    ∀ (rest : List Seg) (cur : Seg),
    List.Chain' (fun a b => a.«end» ≤ b.«end») (cur :: rest) →
    List.Chain' (fun a b =>
      ¬ (isShortSeg minLength minDuration a &&
          canMergeSeg maxLength maxDuration a b) = true)
      (vamsLoop maxLength minLength maxDuration minDuration cur rest) := by
  intro rest
  induction rest with
  | nil =>
    intro cur _
    simp [vamsLoop]
  | cons next rest' ih =>
    intro cur hch
    rw [List.chain'_cons] at hch
    obtain ⟨hen, hch'⟩ := hch
    by_cases hcond : (isShortSeg minLength minDuration cur &&
        canMergeSeg maxLength maxDuration cur next) = true
    · rw [vamsLoop, if_pos hcond]
      have hchm : List.Chain' (fun a b => a.«end» ≤ b.«end»)
          (mergeSeg cur next :: rest') := by
        rw [List.chain'_cons'] at hch' ⊢
        exact ⟨fun y hy => hch'.1 y hy, hch'.2⟩
      exact ih (mergeSeg cur next) hchm
    · rw [vamsLoop, if_neg hcond]
      obtain ⟨a, t, heq, hstart, hlen, hend⟩ :=
        vamsLoop_head maxLength minLength maxDuration minDuration rest' next hch'
      rw [heq, List.chain'_cons]
      constructor
      · intro hcontra
        apply hcond
        rw [Bool.and_eq_true] at hcontra ⊢
        refine ⟨hcontra.1, ?_⟩
        have hcm := hcontra.2
        rw [canMergeSeg, Bool.and_eq_true, decide_eq_true_eq,
          decide_eq_true_eq] at hcm ⊢
        constructor
        · refine le_trans ?_ hcm.1
          rw [String.length_append, String.length_append,
            String.length_append, String.length_append]
          omega
        · have : next.«end» - cur.start ≤ a.«end» - cur.start := by linarith
          linarith [hcm.2]
      · rw [← heq]
        exact ih next hch'

/-- The validator/merger loop is the identity on lists with no mergeable
adjacent pair. -/
theorem vamsLoop_id (maxLength minLength : ℕ) (maxDuration minDuration : ℚ) :
    ∀ (rest : List Seg) (cur : Seg),
    List.Chain' (fun a b =>
      ¬ (isShortSeg minLength minDuration a &&
          canMergeSeg maxLength maxDuration a b) = true) (cur :: rest) →
    vamsLoop maxLength minLength maxDuration minDuration cur rest = cur :: rest := by
  intro rest
  induction rest with
  | nil => intro cur _; rfl
  | cons next rest' ih =>
    intro cur hch
    rw [List.chain'_cons] at hch
    rw [vamsLoop, if_neg hch.1, ih next hch.2]

/-- C7 (counterexample): `validate_and_merge_segments` at its default
thresholds is NOT idempotent on every segment list: with decreasing `end`
values a later merge can shrink a duration below the merge threshold, making
an already-flushed pair mergeable in the second pass. -/
theorem C7_counterexample :
    validate_and_merge_segments (validate_and_merge_segments
      [⟨"ab", 0, 1/2⟩, ⟨"cd", 0, 20⟩, ⟨"ef", 0, 5⟩]) ≠
    validate_and_merge_segments [⟨"ab", 0, 1/2⟩, ⟨"cd", 0, 20⟩, ⟨"ef", 0, 5⟩] := by
  have h1 : validate_and_merge_segments
      [⟨"ab", 0, 1/2⟩, ⟨"cd", 0, 20⟩, ⟨"ef", 0, 5⟩] =
      [⟨"ab", 0, 1/2⟩, ⟨"cd ef", 0, 5⟩] := by
    norm_num [validate_and_merge_segments, vamsLoop, isShortSeg, canMergeSeg,
      mergeSeg]
    rw [if_pos (by decide)]
    rfl
  have h2 : validate_and_merge_segments [⟨"ab", 0, 1/2⟩, ⟨"cd ef", 0, 5⟩] =
      [⟨"ab cd ef", 0, 5⟩] := by
    norm_num [validate_and_merge_segments, vamsLoop, isShortSeg, canMergeSeg,
      mergeSeg]
    rw [if_pos (by decide)]
    rfl
  rw [h1, h2]
  intro hcontra
  exact absurd (congrArg List.length hcontra) (by decide)

/-- C7 (amended): on every segment list whose `end` values are non-decreasing
(the data-model invariant for segments), and for every threshold
configuration, the validator/merger is idempotent. -/
theorem C7_validator_idempotent (segments : List Seg)
    (maxLength minLength : ℕ) (maxDuration minDuration : ℚ)
    (h : List.Chain' (fun a b => a.«end» ≤ b.«end») segments) :
    validate_and_merge_segments
      (validate_and_merge_segments segments maxLength minLength maxDuration
        minDuration) maxLength minLength maxDuration minDuration =
    validate_and_merge_segments segments maxLength minLength maxDuration
      minDuration := by
  cases segments with
  | nil => rfl
  | cons s rest =>
    have hall := vamsLoop_no_merge maxLength minLength maxDuration minDuration
      rest s h
    obtain ⟨a, t, heq, _, _, _⟩ :=
      vamsLoop_head maxLength minLength maxDuration minDuration rest s h
    show validate_and_merge_segments
      (vamsLoop maxLength minLength maxDuration minDuration s rest)
      maxLength minLength maxDuration minDuration =
      vamsLoop maxLength minLength maxDuration minDuration s rest
    rw [heq] at hall ⊢
    show vamsLoop maxLength minLength maxDuration minDuration a t = a :: t
    exact vamsLoop_id maxLength minLength maxDuration minDuration t a hall

/-- C7 witness: two segments with non-decreasing ends at the default
thresholds. -/
theorem C7_validator_idempotent_witness :
    validate_and_merge_segments
      (validate_and_merge_segments [⟨"ab", 0, 1⟩, ⟨"cdefghijkl", 1, 3⟩]
        80 10 10 1) 80 10 10 1 =
    validate_and_merge_segments [⟨"ab", 0, 1⟩, ⟨"cdefghijkl", 1, 3⟩]
      80 10 10 1 :=
  C7_validator_idempotent [⟨"ab", 0, 1⟩, ⟨"cdefghijkl", 1, 3⟩] 80 10 10 1
    (by simp [List.chain'_cons])


/-- `np.argmin` returns an index of the list. -/
theorem argminFirst_lt_length (l : List ℚ) (h : l ≠ []) :
    argminFirst l < l.length := by
  rw [argminFirst]
  cases hm : l.min? with
  | none => exact absurd (List.min?_eq_none_iff.mp hm) h
  | some m =>
    apply List.findIdx_lt_length_of_exists
    exact ⟨m, List.min?_mem (fun x y => min_choice x y) hm, by simp⟩

/-- There is one energy entry per window. -/
theorem windowEnergies_length (segment : List ℚ) (ws num : ℕ) :
    (windowEnergies segment ws num).length = num := by
  simp [windowEnergies]

/-- The cut chosen by one `_find_split_points` iteration lies in the search
window `[current + 0.75·chunk, min (current + 1.25·chunk) total]`. -/
theorem splitChoice_bounds (audio : List ℚ) (rate chunk current : ℕ)
    (hss : current + chunk * 3 / 4 < audio.length) :
    current + chunk * 3 / 4 ≤ splitChoice audio rate chunk current ∧
    splitChoice audio rate chunk current ≤
      min (current + chunk * 5 / 4) audio.length := by
  simp only [splitChoice]
  set ss := current + chunk * 3 / 4 with hss_def
  set se := min (current + chunk * 5 / 4) audio.length with hse_def
  set seg := (audio.drop ss).take (se - ss) with hseg_def
  set ws := rate / 10 with hws_def
  set num := seg.length / ws with hnum_def
  have h35 : ss ≤ current + chunk * 5 / 4 := by
    rw [hss_def]
    have h1 : chunk * 3 / 4 ≤ chunk * 5 / 4 := Nat.div_le_div_right (by omega)
    omega
  have hssse : ss ≤ se := le_min h35 (le_of_lt hss)
  have hseg_len : seg.length = se - ss := by
    rw [hseg_def, List.length_take, List.length_drop]
    have h2 : se ≤ audio.length := min_le_right _ _
    omega
  by_cases hnum : num = 0
  · rw [if_pos hnum]
    exact ⟨hssse, le_rfl⟩
  · rw [if_neg hnum]
    have hws : 0 < ws := by
      rcases Nat.eq_zero_or_pos ws with h0 | h0
      · exfalso
        apply hnum
        rw [hnum_def, h0, Nat.div_zero]
      · exact h0
    have hwelen := windowEnergies_length seg ws num
    have hwene : windowEnergies seg ws num ≠ [] := by
      intro hcontra
      apply hnum
      rw [← hwelen, hcontra]
      rfl
    have hk : argminFirst (windowEnergies seg ws num) < num := by
      have := argminFirst_lt_length _ hwene
      omega
    constructor
    · exact le_trans (Nat.le_add_right ss _) (Nat.le_add_right _ _)
    · have hmul : (argminFirst (windowEnergies seg ws num) + 1) * ws ≤
          num * ws := Nat.mul_le_mul_right ws hk
      have hnm : num * ws ≤ seg.length := by
        rw [hnum_def]
        exact Nat.div_mul_le_self _ _
      have hw2 : ws / 2 < ws := Nat.div_lt_self hws (by omega)
      rw [Nat.add_mul, Nat.one_mul] at hmul
      generalize hA : argminFirst (windowEnergies seg ws num) * ws = A at hmul ⊢
      generalize hB : num * ws = B at hmul hnm
      omega

/-- Every index collected by the `_find_split_points` loop is a valid sample
index. -/
theorem findSplitLoop_mem_le (audio : List ℚ) (rate chunk : ℕ) :
    ∀ (fuel current : ℕ), ∀ x ∈ findSplitLoop audio rate chunk fuel current,
      x ≤ audio.length := by
  intro fuel
  induction fuel with
  | zero => intro current x hx; simp [findSplitLoop] at hx
  | succ n ih =>
    intro current x hx
    simp only [findSplitLoop] at hx
    by_cases h1 : current + chunk < audio.length
    · rw [if_pos h1] at hx
      by_cases h2 : current + chunk * 3 / 4 ≥ audio.length
      · rw [if_pos h2] at hx
        simp at hx
      · rw [if_neg h2] at hx
        by_cases h3 : ((audio.drop (current + chunk * 3 / 4)).take
            (min (current + chunk * 5 / 4) audio.length -
              (current + chunk * 3 / 4))).length = 0
        · rw [if_pos h3] at hx
          simp at hx
        · rw [if_neg h3] at hx
          rcases List.mem_cons.mp hx with h4 | h4
          · subst h4
            have hb := (splitChoice_bounds audio rate chunk current
              (by omega)).2
            have h5 : min (current + chunk * 5 / 4) audio.length ≤
                audio.length := min_le_right _ _
            omega
          · exact ih _ x h4
    · rw [if_neg h1] at hx
      simp at hx

/-- The loop's collected cuts form a chain: each cut lies in the search window
past the previous one and is the choice `splitChoice` makes there. -/
theorem findSplitLoop_chain (audio : List ℚ) (rate chunk : ℕ) :
    ∀ (fuel current : ℕ),
    List.Chain' (fun p q => p + chunk * 3 / 4 ≤ q ∧
        q ≤ min (p + chunk * 5 / 4) audio.length ∧
        q = splitChoice audio rate chunk p)
      (current :: findSplitLoop audio rate chunk fuel current) := by
  intro fuel
  induction fuel with
  | zero => intro current; simp [findSplitLoop]
  | succ n ih =>
    intro current
    simp only [findSplitLoop]
    by_cases h1 : current + chunk < audio.length
    · rw [if_pos h1]
      by_cases h2 : current + chunk * 3 / 4 ≥ audio.length
      · rw [if_pos h2]
        simp
      · rw [if_neg h2]
        by_cases h3 : ((audio.drop (current + chunk * 3 / 4)).take
            (min (current + chunk * 5 / 4) audio.length -
              (current + chunk * 3 / 4))).length = 0
        · rw [if_pos h3]
          simp
        · rw [if_neg h3]
          rw [List.chain'_cons]
          constructor
          · have hb := splitChoice_bounds audio rate chunk current (by omega)
            exact ⟨hb.1, hb.2, rfl⟩
          · exact ih (splitChoice audio rate chunk current)
    · rw [if_neg h1]
      simp


/-- In a strictly increasing list every element is at most the last one. -/
theorem pairwise_lt_le_getLast (l : List ℕ) (h : l.Pairwise (· < ·))
    (hne : l ≠ []) : ∀ x ∈ l, x ≤ l.getLast hne := by
  induction l with
  | nil => exact absurd rfl hne
  | cons a t ih =>
    intro x hx
    cases t with
    | nil =>
      rw [List.mem_singleton] at hx
      subst hx
      exact le_rfl
    | cons b t' =>
      rw [List.getLast_cons (by simp)]
      rcases List.mem_cons.mp hx with h0 | h0
      · subst h0
        have hlast : (b :: t').getLast (by simp) ∈ b :: t' :=
          List.getLast_mem (by simp)
        exact le_of_lt (List.rel_of_pairwise_cons h hlast)
      · exact ih (List.Pairwise.of_cons h) (by simp) x h0

/-- Deduplicating a list that ends in a doubled final element drops the
duplicate. -/
theorem dedup_append_pair (l : List ℕ) (a : ℕ) (h : (l ++ [a]).Nodup) :
    (l ++ [a, a]).dedup = l ++ [a] := by
  induction l with
  | nil =>
    simp
  | cons x l' ih =>
    rw [List.cons_append, List.nodup_cons] at h
    have hx : x ∉ l' ++ [a, a] := by
      intro hcontra
      apply h.1
      have hxa : x ∈ l' ∨ x = a := by
        rcases List.mem_append.mp hcontra with h0 | h0
        · exact Or.inl h0
        · simp at h0
          exact Or.inr h0
      rcases hxa with h0 | h0
      · exact List.mem_append.mpr (Or.inl h0)
      · subst h0
        exact List.mem_append.mpr (Or.inr (List.mem_singleton.mpr rfl))
    rw [List.cons_append, List.dedup_cons_of_not_mem hx, ih h.2,
      List.cons_append]

/-- Shape of `_find_split_points`: the output is `0 :: L ++ [total]`, or
`0 :: L` when the loop's last cut already equals `total`; here `L` is the
strictly increasing list of cuts collected by the loop. -/
theorem find_split_points_shape (audio : List ℚ) (rate : ℕ)
    (hne : audio ≠ []) (hrate : 10 ≤ rate) :
    (0 :: findSplitLoop audio rate (60 * rate) (audio.length + 1) 0).Pairwise
      (· < ·) ∧
    (_find_split_points audio rate 60).Pairwise (· < ·) ∧
    (_find_split_points audio rate 60 =
        (0 :: findSplitLoop audio rate (60 * rate) (audio.length + 1) 0) ++
          [audio.length] ∨
      ((findSplitLoop audio rate (60 * rate) (audio.length + 1) 0).getLast? =
          some audio.length ∧
        _find_split_points audio rate 60 =
          0 :: findSplitLoop audio rate (60 * rate) (audio.length + 1) 0)) := by
  have hchain := findSplitLoop_chain audio rate (60 * rate) (audio.length + 1) 0
  have hlt : List.Chain' (· < ·)
      (0 :: findSplitLoop audio rate (60 * rate) (audio.length + 1) 0) := by
    refine hchain.imp ?_
    intro a b hab
    have h45 : 1 ≤ 60 * rate * 3 / 4 := by omega
    omega
  have hpw := List.chain'_iff_pairwise.mp hlt
  refine ⟨hpw, ?_⟩
  have hmem_le := findSplitLoop_mem_le audio rate (60 * rate)
    (audio.length + 1) 0
  have htotal_pos : 0 < audio.length := List.length_pos.mpr hne
  set L := findSplitLoop audio rate (60 * rate) (audio.length + 1) 0 with hL
  have hraw_pw : ((0 :: L) ++ [audio.length]).Pairwise (· ≤ ·) := by
    rw [List.pairwise_append]
    refine ⟨hpw.imp le_of_lt, by simp, ?_⟩
    intro a ha b hb
    rw [List.mem_singleton] at hb
    subst hb
    rcases List.mem_cons.mp ha with h | h
    · subst h
      omega
    · exact hmem_le a h
  have hout : _find_split_points audio rate 60 =
      ((0 :: L) ++ [audio.length]).dedup := by
    show (List.insertionSort (· ≤ ·) ((0 :: L) ++ [audio.length])).dedup = _
    rw [List.Sorted.insertionSort_eq hraw_pw]
  by_cases hC : L.getLast? = some audio.length
  case pos =>
    have hLne : L ≠ [] := by
      intro h0
      rw [h0] at hC
      simp at hC
    have hlastEq : L.getLast hLne = audio.length := by
      rw [List.getLast?_eq_getLast L hLne] at hC
      exact Option.some.inj hC
    have hdecomp : L = L.dropLast ++ [audio.length] := by
      conv_lhs => rw [← List.dropLast_append_getLast hLne]
      rw [hlastEq]
    have hnodupStem : ((0 :: L.dropLast) ++ [audio.length]).Nodup := by
      have heq2 : (0 :: L.dropLast) ++ [audio.length] = 0 :: L := by
        rw [List.cons_append, ← hdecomp]
      rw [heq2]
      exact hpw.imp ne_of_lt
    have houtC : _find_split_points audio rate 60 = 0 :: L := by
      rw [hout]
      calc ((0 :: L) ++ [audio.length]).dedup
          = ((0 :: L.dropLast) ++ [audio.length, audio.length]).dedup := by
            conv_lhs => rw [hdecomp]
            congr 1
            simp
        _ = (0 :: L.dropLast) ++ [audio.length] :=
            dedup_append_pair _ _ hnodupStem
        _ = 0 :: L := by
            rw [List.cons_append, ← hdecomp]
    rw [houtC]
    exact ⟨hpw, Or.inr ⟨hC, rfl⟩⟩
  case neg =>
    have hLlt : ∀ x ∈ L, x < audio.length := by
      intro x hx
      have hLne : L ≠ [] := by
        intro h0
        rw [h0] at hx
        simp at hx
      have h1 : x ≤ L.getLast hLne :=
        pairwise_lt_le_getLast L (List.Pairwise.of_cons hpw) hLne x hx
      have h2 : L.getLast hLne ≤ audio.length :=
        hmem_le _ (List.getLast_mem hLne)
      rcases lt_or_eq_of_le h2 with h3 | h3
      · omega
      · exfalso
        apply hC
        rw [List.getLast?_eq_getLast L hLne, h3]
    have : ((0 :: L) ++ [audio.length]).Pairwise (· < ·) := by
      rw [List.pairwise_append]
      refine ⟨hpw, by simp, ?_⟩
      intro a ha b hb
      rw [List.mem_singleton] at hb
      subst hb
      rcases List.mem_cons.mp ha with h | h
      · subst h
        omega
      · exact hLlt a h
    have houtB : _find_split_points audio rate 60 = (0 :: L) ++ [audio.length] := by
      rw [hout]
      exact List.dedup_eq_self.mpr (this.imp ne_of_lt)
    rw [houtB]
    exact ⟨this, Or.inl rfl⟩


/-- C6: for a non-empty waveform (at the supported sample rates), the
silence-aware split points are strictly increasing, start at 0 and end at
`len(audio)`; and every interior cut lies in the window
`[prev + 0.75·chunk, min (prev + 1.25·chunk) total]` and is exactly the
`splitChoice` value there — the midpoint of the minimum-peak 0.1 s sub-window,
or the window's far end when the window holds no full sub-window. -/
theorem C6_split_points (audio : List ℚ) (sampleRate : ℕ)
    (hne : audio ≠ []) (hrate : 10 ≤ sampleRate) :
    List.Chain' (· < ·) (_find_split_points audio sampleRate 60) ∧
    (_find_split_points audio sampleRate 60).head? = some 0 ∧
    (_find_split_points audio sampleRate 60).getLast? = some audio.length ∧
    (∀ i, i + 1 < (_find_split_points audio sampleRate 60).length →
      (_find_split_points audio sampleRate 60).getD (i + 1) 0 ≠ audio.length →
      ((_find_split_points audio sampleRate 60).getD i 0 +
          60 * sampleRate * 3 / 4 ≤
        (_find_split_points audio sampleRate 60).getD (i + 1) 0 ∧
      (_find_split_points audio sampleRate 60).getD (i + 1) 0 ≤
        min ((_find_split_points audio sampleRate 60).getD i 0 +
          60 * sampleRate * 5 / 4) audio.length ∧
      (_find_split_points audio sampleRate 60).getD (i + 1) 0 =
        splitChoice audio sampleRate (60 * sampleRate)
          ((_find_split_points audio sampleRate 60).getD i 0))) := by
  obtain ⟨hpw0L, hpwOut, hcase⟩ := find_split_points_shape audio sampleRate hne
    hrate
  have hchain := findSplitLoop_chain audio sampleRate (60 * sampleRate)
    (audio.length + 1) 0
  refine ⟨List.chain'_iff_pairwise.mpr hpwOut, ?_, ?_, ?_⟩
  · rcases hcase with h | ⟨_, h⟩ <;> rw [h] <;> rfl
  · rcases hcase with h | ⟨hlast, h⟩
    · rw [h]
      exact List.getLast?_concat _
    · rw [h]
      cases hL : findSplitLoop audio sampleRate (60 * sampleRate)
          (audio.length + 1) 0 with
      | nil =>
        rw [hL] at hlast
        simp at hlast
      | cons a t =>
        rw [hL] at hlast
        rw [List.getLast?_cons_cons, hlast]
  · intro i hi hq
    rcases hcase with h | ⟨_, h⟩
    · rw [h] at hi hq ⊢
      have hlen : ((0 :: findSplitLoop audio sampleRate (60 * sampleRate)
          (audio.length + 1) 0) ++ [audio.length]).length =
          (0 :: findSplitLoop audio sampleRate (60 * sampleRate)
            (audio.length + 1) 0).length + 1 := by
        rw [List.length_append, List.length_singleton]
      have hi1 : i + 1 < (0 :: findSplitLoop audio sampleRate (60 * sampleRate)
          (audio.length + 1) 0).length := by
        rcases Nat.lt_or_ge (i + 1) ((0 :: findSplitLoop audio sampleRate
            (60 * sampleRate) (audio.length + 1) 0).length) with h2 | h2
        · exact h2
        · exfalso
          apply hq
          have hieq : i + 1 = (0 :: findSplitLoop audio sampleRate
              (60 * sampleRate) (audio.length + 1) 0).length := by omega
          rw [List.getD_eq_getElem _ _ (by omega)]
          exact List.getElem_concat_length _ _ _ hieq _
      have hi0 : i < (0 :: findSplitLoop audio sampleRate (60 * sampleRate)
          (audio.length + 1) 0).length := by omega
      rw [List.getD_eq_getElem _ _ (by omega), List.getD_eq_getElem _ _ (by omega),
        List.getElem_append_left hi0, List.getElem_append_left hi1]
      exact List.chain'_iff_get.mp hchain i (by omega)
    · rw [h] at hi hq ⊢
      rw [List.getD_eq_getElem _ _ (by omega), List.getD_eq_getElem _ _ (by omega)]
      exact List.chain'_iff_get.mp hchain i (by omega)

/-- C6 witness: a one-sample waveform at rate 16 (no iteration, points
`[0, 1]`). -/
theorem C6_split_points_witness :
    List.Chain' (· < ·) (_find_split_points [(1 : ℚ)] 16 60) ∧
    (_find_split_points [(1 : ℚ)] 16 60).head? = some 0 ∧
    (_find_split_points [(1 : ℚ)] 16 60).getLast? =
      some ([(1 : ℚ)].length) ∧
    (∀ i, i + 1 < (_find_split_points [(1 : ℚ)] 16 60).length →
      (_find_split_points [(1 : ℚ)] 16 60).getD (i + 1) 0 ≠
        ([(1 : ℚ)].length) →
      ((_find_split_points [(1 : ℚ)] 16 60).getD i 0 + 60 * 16 * 3 / 4 ≤
        (_find_split_points [(1 : ℚ)] 16 60).getD (i + 1) 0 ∧
      (_find_split_points [(1 : ℚ)] 16 60).getD (i + 1) 0 ≤
        min ((_find_split_points [(1 : ℚ)] 16 60).getD i 0 + 60 * 16 * 5 / 4)
          ([(1 : ℚ)].length) ∧
      (_find_split_points [(1 : ℚ)] 16 60).getD (i + 1) 0 =
        splitChoice [(1 : ℚ)] 16 (60 * 16)
          ((_find_split_points [(1 : ℚ)] 16 60).getD i 0))) :=
  C6_split_points [(1 : ℚ)] 16 (by simp) (by norm_num)


/-- Division of rationals by a natural cast is monotone in the numerator
(trivially, when the rate is zero both sides are zero). -/
theorem qdiv_mono (a b : ℚ) (c : ℕ) (h : a ≤ b) : a / (c : ℚ) ≤ b / (c : ℚ) := by
  rcases Nat.eq_zero_or_pos c with hc | hc
  · simp [hc]
  · have hcq : (0 : ℚ) < (c : ℚ) := by exact_mod_cast hc
    exact (div_le_div_iff_of_pos_right hcq).mpr h

/-- The split points are sorted (`sorted(list(set(...)))`): the insertion sort
is sorted and `dedup` is a sublist of it. -/
theorem find_split_points_chain_le (audio : List ℚ) (rate : ℕ) :
    List.Chain' (· ≤ ·) (_find_split_points audio rate 60) := by
  rw [List.chain'_iff_pairwise]
  simp only [_find_split_points]
  exact List.Pairwise.sublist (List.dedup_sublist _)
    (List.sorted_insertionSort (· ≤ ·) _)

/-- Invariant of the chunk-stitching fold: under the recognizer contract
(equal lengths, non-decreasing timestamps, each timestamp within the chunk
duration) and sorted split indices, the accumulated tokens and timestamps have
equal lengths, the timestamps are globally non-decreasing, and each is at
least `first_index / rate`. -/
theorem stitchChunks_spec (audio : List ℚ) (rate : ℕ)
    (recognize : List ℚ → ChunkResult)
    (hrec : ∀ samples, (recognize samples).tokens.length =
        (recognize samples).timestamps.length ∧
      List.Chain' (· ≤ ·) (recognize samples).timestamps ∧
      ∀ t ∈ (recognize samples).timestamps,
        0 ≤ t ∧ t ≤ (samples.length : ℚ) / (rate : ℚ)) :
    ∀ idxs : List ℕ, List.Chain' (· ≤ ·) idxs →
      (stitchChunks audio rate recognize idxs).2.1.length =
        (stitchChunks audio rate recognize idxs).2.2.length ∧
      List.Chain' (· ≤ ·) (stitchChunks audio rate recognize idxs).2.2 ∧
      ∀ t ∈ (stitchChunks audio rate recognize idxs).2.2,
        ((idxs.headD 0 : ℕ) : ℚ) / (rate : ℚ) ≤ t := by
  intro idxs
  induction idxs with
  | nil =>
    intro _
    refine ⟨rfl, List.chain'_nil, ?_⟩
    intro t ht
    simp [stitchChunks] at ht
  | cons s rest ih =>
    intro hch
    cases rest with
    | nil =>
      refine ⟨rfl, List.chain'_nil, ?_⟩
      intro t ht
      simp [stitchChunks] at ht
    | cons e rest2 =>
      obtain ⟨hse, hch2⟩ := List.chain'_cons.mp hch
      obtain ⟨ihlen, ihchain, ihbound⟩ := ih hch2
      rcases hst : stitchChunks audio rate recognize (e :: rest2) with ⟨parts, toks, ts⟩
      rw [hst] at ihlen ihchain ihbound
      simp only at ihlen ihchain ihbound
      simp only [List.headD_cons] at ihbound
      have hsle : ((s : ℕ) : ℚ) / (rate : ℚ) ≤ ((e : ℕ) : ℚ) / (rate : ℚ) :=
        qdiv_mono _ _ _ (by exact_mod_cast hse)
      simp only [stitchChunks, hst, List.headD_cons]
      by_cases hsmall : ((audio.drop s).take (e - s)).length < 1600
      · rw [if_pos hsmall]
        refine ⟨ihlen, ihchain, ?_⟩
        intro t ht
        exact le_trans hsle (ihbound t ht)
      · rw [if_neg hsmall]
        obtain ⟨hlenc, hchainc, hboundc⟩ :=
          hrec ((audio.drop s).take (e - s))
        have hup : ∀ t ∈ (recognize ((audio.drop s).take (e - s))).timestamps,
            t + ((s : ℕ) : ℚ) / (rate : ℚ) ≤ ((e : ℕ) : ℚ) / (rate : ℚ) := by
          intro t ht
          have h1 := (hboundc t ht).2
          have h2 : ((((audio.drop s).take (e - s)).length : ℕ) : ℚ) ≤
              ((e : ℕ) : ℚ) - ((s : ℕ) : ℚ) := by
            have hlen2 : ((audio.drop s).take (e - s)).length ≤ e - s :=
              List.length_take_le _ _
            calc ((((audio.drop s).take (e - s)).length : ℕ) : ℚ)
                ≤ (((e - s : ℕ) : ℕ) : ℚ) := by exact_mod_cast hlen2
              _ = ((e : ℕ) : ℚ) - ((s : ℕ) : ℚ) := Nat.cast_sub hse
          have h3 := qdiv_mono _ _ rate h2
          have h4 : (((e : ℕ) : ℚ) - ((s : ℕ) : ℚ)) / (rate : ℚ) +
              ((s : ℕ) : ℚ) / (rate : ℚ) = ((e : ℕ) : ℚ) / (rate : ℚ) := by
            ring
          linarith
        by_cases hts : (recognize ((audio.drop s).take (e - s))).timestamps = []
        · have htok : (recognize ((audio.drop s).take (e - s))).tokens = [] := by
            rw [← List.length_eq_zero]
            rw [hlenc, hts]
            rfl
          rw [if_pos hts, if_pos htok]
          refine ⟨ihlen, ihchain, ?_⟩
          intro t ht
          exact le_trans hsle (ihbound t ht)
        · have htok : (recognize ((audio.drop s).take (e - s))).tokens ≠ [] := by
            intro hc
            apply hts
            rw [← List.length_eq_zero, ← hlenc, hc]
            rfl
          rw [if_neg hts, if_neg htok]
          refine ⟨?_, ?_, ?_⟩
          · simp only [List.length_append, List.length_map, hlenc, ihlen]
          · rw [List.chain'_append]
            refine ⟨(List.chain'_map _).mpr
              (hchainc.imp fun a b hab => add_le_add_right hab _), ihchain, ?_⟩
            intro x hx y hy
            have hxm := List.mem_of_mem_getLast? hx
            obtain ⟨t, htm, rfl⟩ := List.mem_map.mp hxm
            have hym := List.mem_of_mem_head? hy
            exact le_trans (hup t htm) (ihbound y hym)
          · intro t ht
            rcases List.mem_append.mp ht with hL | hR
            · obtain ⟨u, hum, rfl⟩ := List.mem_map.mp hL
              have := (hboundc u hum).1
              linarith
            · exact le_trans hsle (ihbound t hR)


/-- C4: for long-audio transcription, if the per-chunk recognizer returns
tokens and timestamps of equal length with timestamps non-decreasing and
bounded by the chunk duration, then the stitched transcript has
`len(tokens) = len(timestamps)` and its timestamps (each chunk offset by
`chunk_start / sample_rate`) are globally non-decreasing. -/
theorem C4_stitched_transcript (audio : List ℚ) (sampleRate : ℕ)
    (recognize : List ℚ → ChunkResult)
    (hlong : 60 * sampleRate < audio.length)
    (hrec : ∀ samples, (recognize samples).tokens.length =
        (recognize samples).timestamps.length ∧
      List.Chain' (· ≤ ·) (recognize samples).timestamps ∧
      ∀ t ∈ (recognize samples).timestamps,
        0 ≤ t ∧ t ≤ (samples.length : ℚ) / (sampleRate : ℚ)) :
    (_transcribe_long_audio audio sampleRate recognize).tokens.length =
      (_transcribe_long_audio audio sampleRate recognize).timestamps.length ∧
    List.Chain' (· ≤ ·)
      (_transcribe_long_audio audio sampleRate recognize).timestamps := by
  obtain ⟨h1, h2, _⟩ := stitchChunks_spec audio sampleRate recognize hrec
    (_find_split_points audio sampleRate 60)
    (find_split_points_chain_le audio sampleRate)
  rcases hst : stitchChunks audio sampleRate recognize
      (_find_split_points audio sampleRate 60) with ⟨p, tk, ts⟩
  rw [hst] at h1 h2
  simp only [_transcribe_long_audio, hst]
  exact ⟨h1, h2⟩

/-- C4 witness: 601 samples at rate 10 (just over 60 s) with a recognizer
that returns the empty result for every chunk. -/
theorem C4_stitched_transcript_witness :
    (_transcribe_long_audio (List.replicate 601 (0 : ℚ)) 10
        (fun _ => ⟨"", [], []⟩)).tokens.length =
      (_transcribe_long_audio (List.replicate 601 (0 : ℚ)) 10
        (fun _ => ⟨"", [], []⟩)).timestamps.length ∧
    List.Chain' (· ≤ ·)
      (_transcribe_long_audio (List.replicate 601 (0 : ℚ)) 10
        (fun _ => ⟨"", [], []⟩)).timestamps :=
  C4_stitched_transcript (List.replicate 601 (0 : ℚ)) 10 (fun _ => ⟨"", [], []⟩)
    (by rw [List.length_replicate]; norm_num)
    (by
      intro samples
      refine ⟨rfl, List.chain'_nil, ?_⟩
      intro t ht
      simp at ht)
